import Mathlib

/-!
Verification of the steganography core of `rust-steganography_thing`.

The Rust sources are shallowly embedded: byte buffers, 16-bit sample buffers and
bit vectors become `List Nat` (with explicit `< 256` / `< 65536` bounds where the
machine width matters), fallible functions return `Except StegError`, and the
index-based scanning loops become fuel-based structural recursions (the fuel is
always instantiated with a bound that the loop's progress argument makes
sufficient, so the top-level wrappers compute the same results as the loops).
File and container I/O (hound, png, image crates) is out of scope; functions are
modelled from the point where the source holds decoded samples / pixel buffers /
raw JPEG bytes.
-/

set_option maxHeartbeats 1000000

namespace Steg

/-- Error outcomes of the repository's operations. The Rust source reports these
as `String`s or `io::Error`s; each constructor stands for one failure site and
carries the numeric context interpolated into the source's message.
`panicked` models an out-of-bounds index panic reachable in
`picture/lsb.rs::hide` (chunk shorter than 3 with bits left). -/
inductive StegError where
  | unsupportedFormat : StegError
  | invalidExtension : StegError
  | capacityExceeded (needed avail : Nat) : StegError
  | headerIncomplete : StegError
  | payloadTruncated (declared availBits : Nat) : StegError
  | panicked : StegError
  | noSosMarker : StegError
  | tooSmallHeader : StegError
  | invalidTotal : StegError
  | seqOutOfRange (seq total : Nat) : StegError
  | missingChunk (index : Nat) : StegError
  | notFound : StegError
  | messageTooLarge : StegError
  | payloadHeaderTooSmall : StegError
  | payloadShorter (declared avail : Nat) : StegError
  | invalidUtf8 : StegError
  deriving Repr, DecidableEq

/-! ## Bitstream framer
Translated from `src/steg_algorithms/audio/wav/lsb.rs` (lines 12-18, 44-57) and
`src/steg_algorithms/picture/general/lsb.rs` (lines 21-31, 84-113). -/

/-- MSB-first bit expansion of the low `w` bits of `n`, as pushed by the loops
shaped `for i in (0..w).rev() bits.push(((n >> i) & 1) as u8)` in `hide_wav`
and `hide`. -/
def bitsBE (w n : Nat) : List Nat :=
  (List.range w).reverse.map fun i => (n >>> i) &&& 1

/-- Framed bitstream built by `hide_wav` (wav/lsb.rs lines 12-18) and `hide`
(picture/general/lsb.rs lines 21-31): a 32-bit big-endian length header
(`msg.len() as u32`, hence reduced mod 2^32) followed by each payload byte
expanded MSB-first into 8 bits. -/
def encodeBits (msg : List Nat) : List Nat :=
  bitsBE 32 (msg.length % 2 ^ 32) ++ (msg.map fun b => bitsBE 8 b).flatten

/-- Length-header read loop `for i in 0..32 do len = (len << 1) | bits[i]`
(wav/lsb.rs line 47, picture/general/lsb.rs lines 89-92). -/
def readLen32 (bits : List Nat) : Nat :=
  (bits.take 32).foldl (fun len b => (len <<< 1) ||| b) 0

/-- Byte-packing loop of `find_wav` (wav/lsb.rs line 55):
`for j in 0..8 do b = (b << 1) | bits[start + i*8 + j]`. -/
def packByteWav (g : List Nat) : Nat :=
  g.foldl (fun b bit => (b <<< 1) ||| bit) 0

/-- Byte-packing loop of the image `find` (picture/general/lsb.rs line 110 and
picture/lsb.rs line 122): `b = (b << 1) | (bits[base + j] & 1)`. -/
def packByteImg (g : List Nat) : Nat :=
  g.foldl (fun b bit => (b <<< 1) ||| (bit &&& 1)) 0

/-- Frame decoding of `find_wav` (wav/lsb.rs lines 44-57): header check, header
read, truncation check, then byte packing over consecutive 8-bit groups.
The source's error strings are "Too short for header" and "Truncated payload". -/
def decodeFrameWav (bits : List Nat) : Except StegError (List Nat) :=
  if bits.length < 32 then .error .headerIncomplete
  else
    let len := readLen32 bits
    if bits.length < 32 + len * 8 then .error (.payloadTruncated len (bits.length - 32))
    else .ok ((List.range len).map fun i => packByteWav (((bits.drop 32).drop (8 * i)).take 8))

/-- Frame decoding inlined in the image `find` (picture/general/lsb.rs lines
84-113, identical in picture/lsb.rs lines 101-125). Error strings there are
"Image too small to contain header" and "Image does not contain full message:
header says ... bytes but capacity is ... bits" (the two counts carried here). -/
def decodeFrameImg (bits : List Nat) : Except StegError (List Nat) :=
  if bits.length < 32 then .error .headerIncomplete
  else
    let len := readLen32 bits
    if bits.length < 32 + len * 8 then .error (.payloadTruncated len (bits.length - 32))
    else .ok ((List.range len).map fun i => packByteImg (((bits.drop 32).drop (8 * i)).take 8))

/-! ## WAV LSB codec (`src/steg_algorithms/audio/wav/lsb.rs`) -/

/-- LSB write loop of `hide_wav` (lines 24-27):
`samples[i] = (s & !1) | (*bit as i16)`, on the 16-bit two's-complement pattern
of each sample viewed as a natural number below 2^16 (`!1i16` is 0xFFFE).
Running out of samples cannot happen in the source (capacity is checked first);
the model then drops the remaining bits. -/
def embedSamples : List Nat → List Nat → List Nat
  | samples, [] => samples
  | [], _ => []
  | s :: ss, b :: bs => ((s &&& 0xFFFE) ||| b) :: embedSamples ss bs

/-- Model of `hide_wav` (wav/lsb.rs lines 4-33) from the point where the WAV
container is decoded: `fmtInt` / `bitsPerSample` are the `WavSpec` fields
checked at line 7, `samples` the 16-bit sample patterns, `msg` the payload
bytes. The result is the mutated sample list handed to the writer. -/
def hide_wav (fmtInt : Bool) (bitsPerSample : Nat) (samples msg : List Nat) :
    Except StegError (List Nat) :=
  if fmtInt = false ∨ bitsPerSample ≠ 16 then .error .unsupportedFormat
  else
    let bits := encodeBits msg
    if bits.length > samples.length then .error (.capacityExceeded bits.length samples.length)
    else .ok (embedSamples samples bits)

/-- Model of `find_wav` (wav/lsb.rs lines 35-59): format check, LSB collection
`(s as u16 & 1) as u8`, then frame decoding. -/
def find_wav (fmtInt : Bool) (bitsPerSample : Nat) (samples : List Nat) :
    Except StegError (List Nat) :=
  if fmtInt = false ∨ bitsPerSample ≠ 16 then .error .unsupportedFormat
  else decodeFrameWav (samples.map fun s => s &&& 1)

/-! ## Image LSB codec (`picture/general/lsb.rs`, `picture/lsb.rs`) -/

/-- Inner loop `for c in 0..3` of the image embedders (picture/general/lsb.rs
lines 48-57, picture/lsb.rs lines 49-57): writes the next bits into positions
0,1,2 of one pixel chunk via `chunk[c] = (chunk[c] & !1) | (bit & 1)`
(`!1u8` is 0xFE; picture/lsb.rs writes the mask as `0b1111_1110`). Returns the
updated chunk, the remaining bits, and whether the outer loop was broken (bits
ran out). `none` models the source panicking on the index `chunk[c]` when the
chunk is shorter than 3 while bits remain (reachable only when the stride is
below 3 or does not divide the buffer length). -/
def embedInChunkGo : Nat → Nat → List Nat → List Nat → Option (List Nat × List Nat × Bool)
  | 0, _, chunk, bits => some (chunk, bits, false)
  | k + 1, c, chunk, bits =>
    match bits with
    | [] => some (chunk, [], true)
    | bit :: rest =>
      if c < chunk.length then
        embedInChunkGo k (c + 1) (chunk.set c ((chunk.getD c 0 &&& 0xFE) ||| (bit &&& 1))) rest
      else none

def embedInChunk (chunk bits : List Nat) : Option (List Nat × List Nat × Bool) :=
  embedInChunkGo 3 0 chunk bits

/-- Outer loop `for chunk in buf.chunks_mut(stride)` of the image embedders,
with explicit fuel (one unit per chunk; the wrapper passes `buf.length + 1`,
sufficient because every chunk consumes at least one buffer byte). A zero
stride models the `chunks_mut(0)` panic as `none`. -/
def embedChunksGo : Nat → Nat → List Nat → List Nat → Option (List Nat)
  | 0, _, _, _ => none
  | _ + 1, _, [], _ => some []
  | fuel + 1, stride, buf, bits =>
    if stride = 0 then none
    else
      match embedInChunk (buf.take stride) bits with
      | none => none
      | some (chunk2, bits2, broke) =>
        if broke then some (chunk2 ++ buf.drop stride)
        else
          match embedChunksGo fuel stride (buf.drop stride) bits2 with
          | none => none
          | some rest => some (chunk2 ++ rest)

def embedChunks (stride : Nat) (buf bits : List Nat) : Option (List Nat) :=
  embedChunksGo (buf.length + 1) stride buf bits

/-- LSB collection loop of the image `find` (picture/general/lsb.rs lines
76-82, picture/lsb.rs lines 94-99): per pixel chunk, pushes
`chunk[0] & 1, chunk[1] & 1, chunk[2] & 1`. Indexing a short trailing chunk
would panic in the source; the model reads 0 there (unreachable for RGBA8
buffers, whose length is a multiple of the stride). -/
def collectLsbGo : Nat → Nat → List Nat → List Nat
  | 0, _, _ => []
  | _ + 1, _, [] => []
  | fuel + 1, stride, buf =>
    if stride = 0 then []
    else (buf.getD 0 0 &&& 1) :: (buf.getD 1 0 &&& 1) :: (buf.getD 2 0 &&& 1)
      :: collectLsbGo fuel stride (buf.drop stride)

def collectLsb (stride : Nat) (buf : List Nat) : List Nat :=
  collectLsbGo (buf.length + 1) stride buf

/-- Model of the general image `hide` (picture/general/lsb.rs lines 6-59) from
the point where the image is decoded and normalized to RGBA8: `buf` is the raw
RGBA byte buffer (stride 4, so `pixels = buf.length / 4` matches the source's
`w * h`), `msg` the message bytes. Path/extension handling and re-encoding are
I/O concerns out of scope. A `none` from the embedder (impossible for RGBA8
buffers) is modelled as `panicked`. -/
def hideImage (buf msg : List Nat) : Except StegError (List Nat) :=
  let bits := encodeBits msg
  let capacity_bits := buf.length / 4 * 3
  if bits.length > capacity_bits then .error (.capacityExceeded bits.length capacity_bits)
  else
    match embedChunks 4 buf bits with
    | none => .error .panicked
    | some out => .ok out

/-- Model of the PNG-native `hide` (picture/lsb.rs lines 5-68): extension check
("Only PNG supported"), bitstream build, capacity check against
`buf.len() / bytes_per_pixel * 3`, then the chunked embed loop at the PNG's
native stride (`color_type.samples()`). `extLower` is the file extension
already lowercased (the source calls the standard library's `to_lowercase()`
before the comparison). Note there is no color-mode check on this hide path;
the Rgb/Rgba check at picture/lsb.rs line 86 is in `find` only. -/
def hidePng (extLower : String) (bytesPerPixel : Nat) (buf msg : List Nat) :
    Except StegError (List Nat) :=
  if extLower ≠ "png" then .error .unsupportedFormat
  else
    let bits := encodeBits msg
    let capacity_bits := buf.length / bytesPerPixel * 3
    if bits.length > capacity_bits then .error (.capacityExceeded bits.length capacity_bits)
    else
      match embedChunks bytesPerPixel buf bits with
      | none => .error .panicked
      | some out => .ok out

/-- UTF-8 validity of a byte sequence. Modelled from the spec: the repository
calls the Rust standard library's `String::from_utf8` (external to src/); this
is the standard UTF-8 well-formedness predicate it checks, with continuation
ranges excluding surrogates and overlong encodings. -/
def isValidUtf8 : List Nat → Bool
  | [] => true
  | b :: rest =>
    if b < 0x80 then isValidUtf8 rest
    else if 0xC2 ≤ b ∧ b ≤ 0xDF then
      match rest with
      | c1 :: rest1 =>
        if 0x80 ≤ c1 ∧ c1 ≤ 0xBF then isValidUtf8 rest1 else false
      | [] => false
    else if 0xE0 ≤ b ∧ b ≤ 0xEF then
      match rest with
      | c1 :: c2 :: rest2 =>
        if (if b = 0xE0 then 0xA0 ≤ c1 ∧ c1 ≤ 0xBF
            else if b = 0xED then 0x80 ≤ c1 ∧ c1 ≤ 0x9F
            else 0x80 ≤ c1 ∧ c1 ≤ 0xBF) ∧ 0x80 ≤ c2 ∧ c2 ≤ 0xBF then
          isValidUtf8 rest2
        else false
      | _ => false
    else if 0xF0 ≤ b ∧ b ≤ 0xF4 then
      match rest with
      | c1 :: c2 :: c3 :: rest3 =>
        if (if b = 0xF0 then 0x90 ≤ c1 ∧ c1 ≤ 0xBF
            else if b = 0xF4 then 0x80 ≤ c1 ∧ c1 ≤ 0x8F
            else 0x80 ≤ c1 ∧ c1 ≤ 0xBF) ∧ 0x80 ≤ c2 ∧ c2 ≤ 0xBF
            ∧ 0x80 ≤ c3 ∧ c3 ≤ 0xBF then
          isValidUtf8 rest3
        else false
      | _ => false
    else false

/-- Model of the general image `find` (picture/general/lsb.rs lines 61-116)
after decoding/normalizing to RGBA8: collect LSBs of channels 0,1,2 per pixel,
decode the frame, then `String::from_utf8(bytes).map_err(intoPlaceholder)`.
An `.ok` carries the UTF-8 bytes of the returned string (identical to the
decoded payload bytes); `.error .invalidUtf8` is the source's
`Err` carrying the placeholder string "<invalid utf8>". -/
def findImage (buf : List Nat) : Except StegError (List Nat) :=
  match decodeFrameImg (collectLsb 4 buf) with
  | .error e => .error e
  | .ok bytes => if isValidUtf8 bytes then .ok bytes else .error .invalidUtf8

/-! ## Generic helper lemmas -/

theorem getD_append_left {l₁ l₂ : List Nat} {n : Nat} (h : n < l₁.length) (d : Nat) :
    (l₁ ++ l₂).getD n d = l₁.getD n d := by
  simp [List.getD_eq_getElem?_getD, List.getElem?_append_left h]

theorem getD_append_right {l₁ l₂ : List Nat} {n : Nat} (h : l₁.length ≤ n) (d : Nat) :
    (l₁ ++ l₂).getD n d = l₂.getD (n - l₁.length) d := by
  simp [List.getD_eq_getElem?_getD, List.getElem?_append_right h]

theorem getD_drop (l : List Nat) (i j d : Nat) :
    (l.drop i).getD j d = l.getD (i + j) d := by
  induction i generalizing l with
  | zero => simp
  | succ k ih =>
    cases l with
    | nil => simp
    | cons x xs =>
      simp only [List.drop_succ_cons, ih xs]
      have : k + 1 + j = (k + j) + 1 := by omega
      rw [this, List.getD_cons_succ]

theorem getD_take {l : List Nat} {n j : Nat} (h : j < n) (d : Nat) :
    (l.take n).getD j d = l.getD j d := by
  simp [List.getD_eq_getElem?_getD, List.getElem?_take_of_lt h]

theorem shiftLeft_one_eq (a : Nat) : a <<< 1 = 2 * a := by
  rw [Nat.shiftLeft_eq]; ring

theorem two_mul_lor_bit {b : Nat} (a : Nat) (hb : b ≤ 1) : 2 * a ||| b = 2 * a + b := by
  match b, hb with
  | 0, _ => simp
  | 1, _ =>
    apply Nat.eq_of_testBit_eq
    intro i
    cases i with
    | zero =>
      rw [Nat.testBit_or]
      simp [Nat.testBit_zero, Nat.mul_add_mod]
    | succ j =>
      rw [Nat.testBit_or, Nat.testBit_succ, Nat.testBit_succ, Nat.testBit_succ]
      have h2 : 2 * a / 2 = a := by omega
      have h3 : (2 * a + 1) / 2 = a := by omega
      have h4 : (1 : Nat) / 2 = 0 := by norm_num
      rw [h2, h3, h4]
      simp [Nat.zero_testBit]

theorem lor_bit_eq_add {b : Nat} (a : Nat) (hb : b ≤ 1) : (a <<< 1) ||| b = 2 * a + b := by
  rw [shiftLeft_one_eq]; exact two_mul_lor_bit a hb

/-! ## Facts about `bitsBE` -/

theorem bitsBE_zero (n : Nat) : bitsBE 0 n = [] := rfl

theorem bitsBE_succ (w n : Nat) :
    bitsBE (w + 1) n = ((n >>> w) &&& 1) :: bitsBE w n := by
  simp [bitsBE, List.range_succ]

@[simp] theorem bitsBE_length (w n : Nat) : (bitsBE w n).length = w := by
  simp [bitsBE]

theorem bitsBE_le_one {w n b : Nat} (hb : b ∈ bitsBE w n) : b ≤ 1 := by
  simp only [bitsBE, List.mem_map] at hb
  obtain ⟨i, _, rfl⟩ := hb
  have := Nat.and_one_is_mod (n >>> i)
  omega

theorem bitsBE_getD {w n j : Nat} (h : j < w) (d : Nat) :
    (bitsBE w n).getD j d = n / 2 ^ (w - 1 - j) % 2 := by
  have hlen : j < ((List.range w).reverse).length := by simpa using h
  simp only [bitsBE, List.getD_eq_getElem?_getD, List.getElem?_map]
  rw [List.getElem?_reverse (by simpa using h)]
  simp only [List.length_range]
  rw [List.getElem?_range (by omega)]
  simp [Nat.shiftRight_eq_div_pow, Nat.and_one_is_mod]

theorem foldl_lor_bitsBE (w n : Nat) : ∀ acc : Nat,
    (bitsBE w n).foldl (fun a b => (a <<< 1) ||| b) acc = acc * 2 ^ w + n % 2 ^ w := by
  induction w with
  | zero => intro acc; simp [bitsBE, Nat.mod_one]
  | succ k ih =>
    intro acc
    rw [bitsBE_succ, List.foldl_cons, ih]
    have hb : (n >>> k) &&& 1 ≤ 1 := by
      have := Nat.and_one_is_mod (n >>> k); omega
    rw [lor_bit_eq_add acc hb]
    have hbit : (n >>> k) &&& 1 = n / 2 ^ k % 2 := by
      rw [Nat.shiftRight_eq_div_pow, Nat.and_one_is_mod]
    rw [hbit, Nat.mod_pow_succ]
    ring

theorem packByteWav_bitsBE {b : Nat} (hb : b < 256) : packByteWav (bitsBE 8 b) = b := by
  have := foldl_lor_bitsBE 8 b 0
  simpa [packByteWav, Nat.mod_eq_of_lt hb] using this

/-! ## Numeric (sum-of-powers) readings of the bit loops -/

/-- Big-endian numeric value of the first 32 bits: the specification's
"declaredLength" of the header ("32-bit big-endian length header, bit 31
first"). -/
def declaredLen (bits : List Nat) : Nat :=
  ∑ j ∈ Finset.range 32, 2 ^ (31 - j) * bits.getD j 0

theorem foldl_two_mul_add (bs : List Nat) : ∀ acc : Nat,
    bs.foldl (fun a b => 2 * a + b) acc
      = acc * 2 ^ bs.length
        + ∑ j ∈ Finset.range bs.length, 2 ^ (bs.length - 1 - j) * bs.getD j 0 := by
  induction bs with
  | nil => intro acc; simp
  | cons b bs ih =>
    intro acc
    have hstep : List.foldl (fun a b => 2 * a + b) acc (b :: bs)
        = List.foldl (fun a b => 2 * a + b) (2 * acc + b) bs := rfl
    rw [hstep, ih]
    have hsum : ∑ j ∈ Finset.range (b :: bs).length,
          2 ^ ((b :: bs).length - 1 - j) * (b :: bs).getD j 0
        = 2 ^ bs.length * b
          + ∑ j ∈ Finset.range bs.length, 2 ^ (bs.length - 1 - j) * bs.getD j 0 := by
      have hl : (b :: bs).length = bs.length + 1 := rfl
      rw [hl, Finset.sum_range_succ']
      have hterm : ∀ x ∈ Finset.range bs.length,
          2 ^ (bs.length + 1 - 1 - (x + 1)) * (b :: bs).getD (x + 1) 0
            = 2 ^ (bs.length - 1 - x) * bs.getD x 0 := by
        intro x _
        have hx : bs.length + 1 - 1 - (x + 1) = bs.length - 1 - x := by omega
        rw [hx, List.getD_cons_succ]
      rw [Finset.sum_congr rfl hterm]
      have hx0 : bs.length + 1 - 1 - 0 = bs.length := by omega
      rw [hx0, List.getD_cons_zero]
      ring
    rw [hsum]
    have hl : (b :: bs).length = bs.length + 1 := rfl
    rw [hl]
    ring

theorem foldl_lor_eq_two_mul_add (bs : List Nat) (hb : ∀ b ∈ bs, b ≤ 1) : ∀ acc : Nat,
    bs.foldl (fun a b => (a <<< 1) ||| b) acc = bs.foldl (fun a b => 2 * a + b) acc := by
  induction bs with
  | nil => intro acc; rfl
  | cons b bs ih =>
    intro acc
    rw [List.foldl_cons, List.foldl_cons, lor_bit_eq_add acc (hb b (by simp))]
    exact ih (fun x hx => hb x (by simp [hx])) _

theorem foldl_lorand_eq_two_mul_add (bs : List Nat) (hb : ∀ b ∈ bs, b ≤ 1) : ∀ acc : Nat,
    bs.foldl (fun a b => (a <<< 1) ||| (b &&& 1)) acc = bs.foldl (fun a b => 2 * a + b) acc := by
  induction bs with
  | nil => intro acc; rfl
  | cons b bs ih =>
    intro acc
    have hb1 : b &&& 1 = b := by
      have h := hb b (by simp)
      have := Nat.and_one_is_mod b
      omega
    rw [List.foldl_cons, List.foldl_cons, hb1, lor_bit_eq_add acc (hb b (by simp))]
    exact ih (fun x hx => hb x (by simp [hx])) _

theorem packByteWav_eq_sum (g : List Nat) (hb : ∀ b ∈ g, b ≤ 1) :
    packByteWav g = ∑ j ∈ Finset.range g.length, 2 ^ (g.length - 1 - j) * g.getD j 0 := by
  rw [packByteWav, foldl_lor_eq_two_mul_add g hb, foldl_two_mul_add]
  simp

theorem packByteImg_eq_packByteWav (g : List Nat) (hb : ∀ b ∈ g, b ≤ 1) :
    packByteImg g = packByteWav g := by
  rw [packByteImg, packByteWav, foldl_lorand_eq_two_mul_add g hb, foldl_lor_eq_two_mul_add g hb]

theorem readLen32_eq_declaredLen {bits : List Nat} (hb : ∀ b ∈ bits, b ≤ 1) :
    32 ≤ bits.length → readLen32 bits = declaredLen bits := by
  intro h32
  have hts : ∀ b ∈ bits.take 32, b ≤ 1 := fun b h => hb b (List.take_subset _ _ h)
  rw [readLen32, foldl_lor_eq_two_mul_add _ hts, foldl_two_mul_add]
  have hlt : (bits.take 32).length = 32 := by
    rw [List.length_take]; omega
  rw [hlt, declaredLen]
  simp only [Nat.zero_mul, Nat.zero_add]
  apply Finset.sum_congr rfl
  intro j hj
  rw [Finset.mem_range] at hj
  rw [getD_take hj]

/-! ## Claim C4: encode produces header then MSB-first bytes, 32 + 8n bits -/

theorem msgBits_length (msg : List Nat) :
    ((msg.map fun b => bitsBE 8 b).flatten).length = 8 * msg.length := by
  induction msg with
  | nil => simp
  | cons b msg ih =>
    simp only [List.map_cons, List.flatten_cons, List.length_append, bitsBE_length, ih,
      List.length_cons]
    ring

theorem msgBits_getD (msg : List Nat) : ∀ i j : Nat, i < msg.length → j < 8 →
    ((msg.map fun b => bitsBE 8 b).flatten).getD (8 * i + j) 0
      = (bitsBE 8 (msg.getD i 0)).getD j 0 := by
  induction msg with
  | nil => intro i j hi _; simp at hi
  | cons b msg ih =>
    intro i j hi hj
    simp only [List.map_cons, List.flatten_cons]
    cases i with
    | zero =>
      simp only [Nat.mul_zero, Nat.zero_add, List.getD_cons_zero]
      exact getD_append_left (by simpa using hj) 0
    | succ k =>
      have hidx : 8 * (k + 1) + j = 8 + (8 * k + j) := by ring
      rw [hidx, getD_append_right (by simp)]
      simp only [bitsBE_length, Nat.add_sub_cancel_left, List.getD_cons_succ]
      exact ih k j (by simpa using Nat.lt_of_succ_lt_succ hi) hj

/-- C4: for every payload of `n` bytes, `encode` produces exactly the 32-bit
big-endian length header (bit 31 first) followed by each payload byte expanded
MSB-first into 8 bits, so the framed bitstream has exactly `32 + 8*n` bits.
Determinism and totality hold because `encodeBits` is a plain total function. -/
theorem C4_encode_frame (msg : List Nat) (hlen : msg.length < 2 ^ 32) :
    (encodeBits msg).length = 32 + 8 * msg.length ∧
    (∀ j, j < 32 → (encodeBits msg).getD j 0 = msg.length / 2 ^ (31 - j) % 2) ∧
    (∀ i j, i < msg.length → j < 8 →
      (encodeBits msg).getD (32 + 8 * i + j) 0 = msg.getD i 0 / 2 ^ (7 - j) % 2) := by
  refine ⟨?_, ?_, ?_⟩
  · rw [encodeBits, List.length_append, bitsBE_length, msgBits_length]
  · intro j hj
    rw [encodeBits, getD_append_left (by simpa using hj), bitsBE_getD hj,
      Nat.mod_eq_of_lt hlen]
  · intro i j hi hj
    have hlen32 : (bitsBE 32 (msg.length % 2 ^ 32)).length = 32 := bitsBE_length _ _
    rw [encodeBits, getD_append_right (by rw [hlen32]; omega), hlen32]
    have hidx : 32 + 8 * i + j - 32 = 8 * i + j := by omega
    rw [hidx, msgBits_getD msg i j hi hj, bitsBE_getD hj]

/-- Witness for C4 at the concrete payload `[7]`. -/
theorem C4_encode_frame_witness :
    ([7] : List Nat).length < 2 ^ 32 ∧
    ((encodeBits [7]).length = 32 + 8 * ([7] : List Nat).length ∧
    (∀ j, j < 32 → (encodeBits [7]).getD j 0 = ([7] : List Nat).length / 2 ^ (31 - j) % 2) ∧
    (∀ i j, i < ([7] : List Nat).length → j < 8 →
      (encodeBits [7]).getD (32 + 8 * i + j) 0 = ([7] : List Nat).getD i 0 / 2 ^ (7 - j) % 2)) :=
  ⟨by norm_num, C4_encode_frame [7] (by norm_num)⟩

/-! ## Arithmetic reading of the LSB write -/

theorem and_mask_clears_lsb {w : Nat} (hw : 1 ≤ w) {s : Nat} (hs : s < 2 ^ w) :
    s &&& (2 ^ w - 2) = 2 * (s / 2) := by
  have hpow : 2 ^ w = 2 * 2 ^ (w - 1) := by
    conv_lhs => rw [show w = (w - 1) + 1 by omega]
    rw [Nat.pow_succ]; ring
  apply Nat.eq_of_testBit_eq
  intro i
  rw [Nat.testBit_and]
  cases i with
  | zero =>
    have hm0 : (2 ^ w - 2).testBit 0 = false := by
      rw [Nat.testBit_zero]
      simp only [decide_eq_false_iff_not]
      omega
    have hr0 : (2 * (s / 2)).testBit 0 = false := by
      rw [Nat.testBit_zero]
      simp only [decide_eq_false_iff_not]
      omega
    rw [hm0, hr0, Bool.and_false]
  | succ j =>
    rw [Nat.testBit_succ, Nat.testBit_succ, Nat.testBit_succ]
    have hmd : (2 ^ w - 2) / 2 = 2 ^ (w - 1) - 1 := by omega
    have hsd : 2 * (s / 2) / 2 = s / 2 := by omega
    rw [hmd, hsd, Nat.testBit_two_pow_sub_one]
    by_cases hj : j < w - 1
    · simp [hj]
    · have hfalse : decide (j < w - 1) = false := by simp [hj]
      rw [hfalse, Bool.and_false]
      have h1 : s / 2 < 2 ^ (w - 1) := by omega
      have h2 : 2 ^ (w - 1) ≤ 2 ^ j := Nat.pow_le_pow_right (by omega) (by omega)
      have h3 : s / 2 < 2 ^ j := by omega
      exact (Nat.testBit_lt_two_pow h3).symm

theorem and_one_of_le_one {b : Nat} (hb : b ≤ 1) : b &&& 1 = b := by
  have := Nat.and_one_is_mod b; omega

theorem setLsb16_arith {x b : Nat} (hx : x < 65536) (hb : b ≤ 1) :
    (x &&& 0xFFFE) ||| b = 2 * (x / 2) + b := by
  have h : (0xFFFE : Nat) = 2 ^ 16 - 2 := by norm_num
  rw [h, and_mask_clears_lsb (by norm_num) (by simpa using hx), two_mul_lor_bit _ hb]

theorem setLsb8_arith {x b : Nat} (hx : x < 256) (hb : b ≤ 1) :
    (x &&& 0xFE) ||| (b &&& 1) = 2 * (x / 2) + b := by
  rw [and_one_of_le_one hb]
  have h : (0xFE : Nat) = 2 ^ 8 - 2 := by norm_num
  rw [h, and_mask_clears_lsb (by norm_num) (by simpa using hx), two_mul_lor_bit _ hb]

/-! ## Frame effect of the wav embedder -/

theorem embedSamples_spec : ∀ (samples bits : List Nat),
    (∀ b ∈ bits, b ≤ 1) → (∀ s ∈ samples, s < 65536) → bits.length ≤ samples.length →
    (embedSamples samples bits).length = samples.length ∧
    (∀ i, i < bits.length →
      (embedSamples samples bits).getD i 0 % 2 = bits.getD i 0 ∧
      (embedSamples samples bits).getD i 0 / 2 = samples.getD i 0 / 2) ∧
    (∀ i, bits.length ≤ i → (embedSamples samples bits).getD i 0 = samples.getD i 0) := by
  intro samples bits
  induction bits generalizing samples with
  | nil =>
    intro _ _ _
    refine ⟨by cases samples <;> rfl, by simp, by intro i _; cases samples <;> rfl⟩
  | cons b bs ih =>
    intro hb hs hlen
    cases samples with
    | nil => simp at hlen
    | cons s ss =>
      have hunf : embedSamples (s :: ss) (b :: bs)
          = ((s &&& 0xFFFE) ||| b) :: embedSamples ss bs := rfl
      have hval : (s &&& 0xFFFE) ||| b = 2 * (s / 2) + b :=
        setLsb16_arith (hs s (by simp)) (hb b (by simp))
      have hb1 : b ≤ 1 := hb b (by simp)
      have ihss := ih ss (fun x hx => hb x (by simp [hx])) (fun x hx => hs x (by simp [hx]))
        (by simp at hlen; omega)
      refine ⟨?_, ?_, ?_⟩
      · rw [hunf]; simp [ihss.1]
      · intro i hi
        cases i with
        | zero =>
          rw [hunf]
          constructor
          · simp only [List.getD_cons_zero]; omega
          · simp only [List.getD_cons_zero]; omega
        | succ j =>
          rw [hunf]
          simp only [List.getD_cons_succ]
          exact ihss.2.1 j (by simp at hi; omega)
      · intro i hi
        cases i with
        | zero => simp at hi
        | succ j =>
          rw [hunf]
          simp only [List.getD_cons_succ]
          exact ihss.2.2 j (by simp at hi; omega)

/-! ## Frame effect of the image embedder -/

theorem exists_four_cons {l : List Nat} (h4 : l.length % 4 = 0) (hne : l ≠ []) :
    ∃ a b c d rest, l = a :: b :: c :: d :: rest ∧ rest.length % 4 = 0 := by
  match l with
  | [] => exact absurd rfl hne
  | [a] => simp at h4
  | [a, b] => simp at h4
  | [a, b, c] => simp at h4
  | a :: b :: c :: d :: rest =>
    refine ⟨a, b, c, d, rest, rfl, ?_⟩
    simp only [List.length_cons] at h4
    omega

theorem embedChunksGo_spec : ∀ (fuel : Nat) (buf bits : List Nat),
    buf.length < 4 * fuel →
    (∀ b ∈ bits, b ≤ 1) → (∀ x ∈ buf, x < 256) →
    buf.length % 4 = 0 → bits.length ≤ buf.length / 4 * 3 →
    ∃ out, embedChunksGo fuel 4 buf bits = some out ∧
      out.length = buf.length ∧
      ∀ j, j < buf.length →
        (j % 4 = 3 → out.getD j 0 = buf.getD j 0) ∧
        (j % 4 < 3 →
          (j / 4 * 3 + j % 4 < bits.length →
            out.getD j 0 % 2 = bits.getD (j / 4 * 3 + j % 4) 0 ∧
            out.getD j 0 / 2 = buf.getD j 0 / 2) ∧
          (bits.length ≤ j / 4 * 3 + j % 4 → out.getD j 0 = buf.getD j 0)) := by
  intro fuel
  induction fuel with
  | zero => intro buf bits hfuel; omega
  | succ k ih =>
    intro buf bits hfuel hb hx hmod hcap
    by_cases hnil : buf = []
    · subst hnil
      exact ⟨[], rfl, rfl, fun j hj => by simp at hj⟩
    obtain ⟨a, b, c, d, rest, rfl, hmodr⟩ := exists_four_cons hmod hnil
    have hlen4 : (a :: b :: c :: d :: rest).length = rest.length + 4 := rfl
    have ha : a < 256 := hx a (by simp)
    have hbv : b < 256 := hx b (by simp)
    have hcv : c < 256 := hx c (by simp)
    rcases bits with _ | ⟨b0, _ | ⟨b1, _ | ⟨b2, bs⟩⟩⟩
    · -- no bits left: the chunk breaks immediately, the buffer is unchanged
      refine ⟨a :: b :: c :: d :: rest, rfl, rfl, fun j hj => ⟨fun _ => rfl, fun _ => ?_⟩⟩
      exact ⟨fun h => absurd h (by simp), fun _ => rfl⟩
    · -- one bit left
      have hb0 : b0 ≤ 1 := hb b0 (by simp)
      have har0 : (a &&& 0xFE) ||| (b0 &&& 1) = 2 * (a / 2) + b0 := setLsb8_arith ha hb0
      refine ⟨((a &&& 0xFE) ||| (b0 &&& 1)) :: b :: c :: d :: rest, rfl, by simp, ?_⟩
      intro j hj
      by_cases hj4 : j < 4
      · interval_cases j
        · refine ⟨fun h => absurd h (by norm_num), fun _ =>
            ⟨fun _ => ⟨?_, ?_⟩, fun h => absurd h (by norm_num)⟩⟩
          · show ((a &&& 0xFE) ||| (b0 &&& 1)) % 2 = b0
            omega
          · show ((a &&& 0xFE) ||| (b0 &&& 1)) / 2 = a / 2
            omega
        · exact ⟨fun h => absurd h (by norm_num), fun _ =>
            ⟨fun h => absurd h (by norm_num), fun _ => rfl⟩⟩
        · exact ⟨fun h => absurd h (by norm_num), fun _ =>
            ⟨fun h => absurd h (by norm_num), fun _ => rfl⟩⟩
        · exact ⟨fun _ => rfl, fun h => absurd h (by norm_num)⟩
      · have hout : (((a &&& 0xFE) ||| (b0 &&& 1)) :: b :: c :: d :: rest).getD j 0
            = rest.getD (j - 4) 0 := by
          have hform : (((a &&& 0xFE) ||| (b0 &&& 1)) :: b :: c :: d :: rest)
              = [(a &&& 0xFE) ||| (b0 &&& 1), b, c, d] ++ rest := rfl
          rw [hform, getD_append_right (by simp; omega)]
          norm_num
        have hbuf : (a :: b :: c :: d :: rest).getD j 0 = rest.getD (j - 4) 0 := by
          have hform : (a :: b :: c :: d :: rest) = [a, b, c, d] ++ rest := rfl
          rw [hform, getD_append_right (by simp; omega)]
          norm_num
        refine ⟨fun _ => by rw [hout, hbuf], fun _ => ⟨fun h => ?_, fun _ => by rw [hout, hbuf]⟩⟩
        exact absurd h (by simp only [List.length_cons, List.length_nil]; omega)
    · -- two bits left
      have hb0 : b0 ≤ 1 := hb b0 (by simp)
      have hb1 : b1 ≤ 1 := hb b1 (by simp)
      have har0 : (a &&& 0xFE) ||| (b0 &&& 1) = 2 * (a / 2) + b0 := setLsb8_arith ha hb0
      have har1 : (b &&& 0xFE) ||| (b1 &&& 1) = 2 * (b / 2) + b1 := setLsb8_arith hbv hb1
      refine ⟨((a &&& 0xFE) ||| (b0 &&& 1)) :: ((b &&& 0xFE) ||| (b1 &&& 1)) :: c :: d :: rest,
        rfl, by simp, ?_⟩
      intro j hj
      by_cases hj4 : j < 4
      · interval_cases j
        · refine ⟨fun h => absurd h (by norm_num), fun _ =>
            ⟨fun _ => ⟨?_, ?_⟩, fun h => absurd h (by norm_num)⟩⟩
          · show ((a &&& 0xFE) ||| (b0 &&& 1)) % 2 = b0
            omega
          · show ((a &&& 0xFE) ||| (b0 &&& 1)) / 2 = a / 2
            omega
        · refine ⟨fun h => absurd h (by norm_num), fun _ =>
            ⟨fun _ => ⟨?_, ?_⟩, fun h => absurd h (by norm_num)⟩⟩
          · show ((b &&& 0xFE) ||| (b1 &&& 1)) % 2 = b1
            omega
          · show ((b &&& 0xFE) ||| (b1 &&& 1)) / 2 = b / 2
            omega
        · exact ⟨fun h => absurd h (by norm_num), fun _ =>
            ⟨fun h => absurd h (by norm_num), fun _ => rfl⟩⟩
        · exact ⟨fun _ => rfl, fun h => absurd h (by norm_num)⟩
      · have hout : (((a &&& 0xFE) ||| (b0 &&& 1)) :: ((b &&& 0xFE) ||| (b1 &&& 1))
              :: c :: d :: rest).getD j 0 = rest.getD (j - 4) 0 := by
          have hform : (((a &&& 0xFE) ||| (b0 &&& 1)) :: ((b &&& 0xFE) ||| (b1 &&& 1))
              :: c :: d :: rest)
              = [(a &&& 0xFE) ||| (b0 &&& 1), (b &&& 0xFE) ||| (b1 &&& 1), c, d] ++ rest := rfl
          rw [hform, getD_append_right (by simp; omega)]
          norm_num
        have hbuf : (a :: b :: c :: d :: rest).getD j 0 = rest.getD (j - 4) 0 := by
          have hform : (a :: b :: c :: d :: rest) = [a, b, c, d] ++ rest := rfl
          rw [hform, getD_append_right (by simp; omega)]
          norm_num
        refine ⟨fun _ => by rw [hout, hbuf], fun _ => ⟨fun h => ?_, fun _ => by rw [hout, hbuf]⟩⟩
        exact absurd h (by simp only [List.length_cons, List.length_nil]; omega)
    · -- three or more bits: the chunk is fully written and the loop continues
      have hb0 : b0 ≤ 1 := hb b0 (by simp)
      have hb1 : b1 ≤ 1 := hb b1 (by simp)
      have hb2 : b2 ≤ 1 := hb b2 (by simp)
      have har0 : (a &&& 0xFE) ||| (b0 &&& 1) = 2 * (a / 2) + b0 := setLsb8_arith ha hb0
      have har1 : (b &&& 0xFE) ||| (b1 &&& 1) = 2 * (b / 2) + b1 := setLsb8_arith hbv hb1
      have har2 : (c &&& 0xFE) ||| (b2 &&& 1) = 2 * (c / 2) + b2 := setLsb8_arith hcv hb2
      have hlenb : (b0 :: b1 :: b2 :: bs).length = bs.length + 3 := by
        simp only [List.length_cons]
      obtain ⟨out', hrun', hlen', hspec'⟩ := ih rest bs
        (by rw [hlen4] at hfuel; omega)
        (fun x hxm => hb x (by simp [hxm]))
        (fun x hxm => hx x (by simp [hxm]))
        hmodr
        (by rw [hlenb] at hcap; rw [hlen4] at hcap; omega)
      have hrun : embedChunksGo (k + 1) 4 (a :: b :: c :: d :: rest) (b0 :: b1 :: b2 :: bs)
          = match embedChunksGo k 4 rest bs with
            | none => none
            | some out' => some ((((a &&& 0xFE) ||| (b0 &&& 1)) :: ((b &&& 0xFE) ||| (b1 &&& 1))
                :: ((c &&& 0xFE) ||| (b2 &&& 1)) :: d :: []) ++ out') := rfl
      refine ⟨(((a &&& 0xFE) ||| (b0 &&& 1)) :: ((b &&& 0xFE) ||| (b1 &&& 1))
          :: ((c &&& 0xFE) ||| (b2 &&& 1)) :: d :: []) ++ out', by rw [hrun, hrun'], ?_, ?_⟩
      · have h1 : ((((a &&& 0xFE) ||| (b0 &&& 1)) :: ((b &&& 0xFE) ||| (b1 &&& 1))
            :: ((c &&& 0xFE) ||| (b2 &&& 1)) :: d :: []) ++ out').length = 4 + out'.length := by
          simp only [List.length_append, List.length_cons, List.length_nil]
        rw [h1, hlen', hlen4]
        omega
      intro j hj
      by_cases hj4 : j < 4
      · interval_cases j
        · refine ⟨fun h => absurd h (by norm_num), fun _ => ⟨fun _ => ⟨?_, ?_⟩, fun h => ?_⟩⟩
          · show ((a &&& 0xFE) ||| (b0 &&& 1)) % 2 = b0
            omega
          · show ((a &&& 0xFE) ||| (b0 &&& 1)) / 2 = a / 2
            omega
          · exact absurd h (by simp only [List.length_cons]; omega)
        · refine ⟨fun h => absurd h (by norm_num), fun _ => ⟨fun _ => ⟨?_, ?_⟩, fun h => ?_⟩⟩
          · show ((b &&& 0xFE) ||| (b1 &&& 1)) % 2 = b1
            omega
          · show ((b &&& 0xFE) ||| (b1 &&& 1)) / 2 = b / 2
            omega
          · exact absurd h (by simp only [List.length_cons]; omega)
        · refine ⟨fun h => absurd h (by norm_num), fun _ => ⟨fun _ => ⟨?_, ?_⟩, fun h => ?_⟩⟩
          · show ((c &&& 0xFE) ||| (b2 &&& 1)) % 2 = b2
            omega
          · show ((c &&& 0xFE) ||| (b2 &&& 1)) / 2 = c / 2
            omega
          · exact absurd h (by simp only [List.length_cons]; omega)
        · exact ⟨fun _ => rfl, fun h => absurd h (by norm_num)⟩
      · -- beyond the first pixel: defer to the induction hypothesis on the tail
        have hj' : j - 4 < rest.length := by rw [hlen4] at hj; omega
        have hout : ((((a &&& 0xFE) ||| (b0 &&& 1)) :: ((b &&& 0xFE) ||| (b1 &&& 1))
              :: ((c &&& 0xFE) ||| (b2 &&& 1)) :: d :: []) ++ out').getD j 0
            = out'.getD (j - 4) 0 := by
          rw [getD_append_right (by simp only [List.length_cons, List.length_nil]; omega)]
          norm_num
        have hbuf : (a :: b :: c :: d :: rest).getD j 0 = rest.getD (j - 4) 0 := by
          have hform : (a :: b :: c :: d :: rest) = [a, b, c, d] ++ rest := rfl
          rw [hform, getD_append_right (by simp; omega)]
          norm_num
        have hbits : ∀ m : Nat, (b0 :: b1 :: b2 :: bs).getD (m + 3) 0 = bs.getD m 0 := by
          intro m
          have hform : (b0 :: b1 :: b2 :: bs) = [b0, b1, b2] ++ bs := rfl
          rw [hform, getD_append_right (by simp)]
          simp
        obtain ⟨hsp3, hsplt⟩ := hspec' (j - 4) hj'
        constructor
        · intro h3
          rw [hout, hbuf]
          exact hsp3 (by omega)
        · intro hlt3
          have hlt3' : (j - 4) % 4 < 3 := by omega
          obtain ⟨htouch, hskip⟩ := hsplt hlt3'
          constructor
          · intro hidxlt
            have hidxlt' : (j - 4) / 4 * 3 + (j - 4) % 4 < bs.length := by
              rw [hlenb] at hidxlt; omega
            obtain ⟨hm, hd2⟩ := htouch hidxlt'
            refine ⟨?_, ?_⟩
            · rw [hout, hm]
              have heq : j / 4 * 3 + j % 4 = ((j - 4) / 4 * 3 + (j - 4) % 4) + 3 := by omega
              rw [heq, hbits]
            · rw [hout, hbuf]
              exact hd2
          · intro hidxge
            rw [hout, hbuf]
            apply hskip
            rw [hlenb] at hidxge
            omega
/-- C2: for every bit sequence and every unit sequence with sufficient
capacity, embed sets unit `i`'s lowest bit to bit `i` for each `i` below the
bit count and changes nothing else: no bit above the lowest bit of any touched
cell is altered (the quotient by 2 is preserved), no cell at index at or past
the bit count is touched, and in the image embedder only channels 0,1,2 of
each pixel participate — the alpha byte (`j % 4 = 3`) is never touched. First
conjunct: the wav sample embedder; second: the RGBA8 image embedder. -/
theorem C2_embed_effect :
    (∀ samples bits : List Nat,
      (∀ b ∈ bits, b ≤ 1) → (∀ s ∈ samples, s < 65536) → bits.length ≤ samples.length →
      (embedSamples samples bits).length = samples.length ∧
      (∀ i, i < bits.length →
        (embedSamples samples bits).getD i 0 % 2 = bits.getD i 0 ∧
        (embedSamples samples bits).getD i 0 / 2 = samples.getD i 0 / 2) ∧
      (∀ i, bits.length ≤ i → (embedSamples samples bits).getD i 0 = samples.getD i 0)) ∧
    (∀ buf bits : List Nat,
      (∀ b ∈ bits, b ≤ 1) → (∀ x ∈ buf, x < 256) →
      buf.length % 4 = 0 → bits.length ≤ buf.length / 4 * 3 →
      ∃ out, embedChunks 4 buf bits = some out ∧
        out.length = buf.length ∧
        ∀ j, j < buf.length →
          (j % 4 = 3 → out.getD j 0 = buf.getD j 0) ∧
          (j % 4 < 3 →
            (j / 4 * 3 + j % 4 < bits.length →
              out.getD j 0 % 2 = bits.getD (j / 4 * 3 + j % 4) 0 ∧
              out.getD j 0 / 2 = buf.getD j 0 / 2) ∧
            (bits.length ≤ j / 4 * 3 + j % 4 → out.getD j 0 = buf.getD j 0))) := by
  constructor
  · exact embedSamples_spec
  · intro buf bits hb hx hmod hcap
    exact embedChunksGo_spec (buf.length + 1) buf bits (by omega) hb hx hmod hcap

/-- Witness for C2: one embedded bit into two samples, and one embedded bit
into a single RGBA pixel. -/
theorem C2_embed_effect_witness :
    ((∀ b ∈ ([1] : List Nat), b ≤ 1) ∧ (∀ s ∈ ([2, 3] : List Nat), s < 65536) ∧
      ([1] : List Nat).length ≤ ([2, 3] : List Nat).length ∧
      (∀ x ∈ ([4, 5, 6, 7] : List Nat), x < 256) ∧
      ([4, 5, 6, 7] : List Nat).length % 4 = 0 ∧
      ([1] : List Nat).length ≤ ([4, 5, 6, 7] : List Nat).length / 4 * 3) ∧
    ((embedSamples [2, 3] [1]).length = ([2, 3] : List Nat).length ∧
      (∀ i, i < ([1] : List Nat).length →
        (embedSamples [2, 3] [1]).getD i 0 % 2 = ([1] : List Nat).getD i 0 ∧
        (embedSamples [2, 3] [1]).getD i 0 / 2 = ([2, 3] : List Nat).getD i 0 / 2) ∧
      (∀ i, ([1] : List Nat).length ≤ i →
        (embedSamples [2, 3] [1]).getD i 0 = ([2, 3] : List Nat).getD i 0)) ∧
    (∃ out, embedChunks 4 [4, 5, 6, 7] [1] = some out ∧
      out.length = ([4, 5, 6, 7] : List Nat).length ∧
      ∀ j, j < ([4, 5, 6, 7] : List Nat).length →
        (j % 4 = 3 → out.getD j 0 = ([4, 5, 6, 7] : List Nat).getD j 0) ∧
        (j % 4 < 3 →
          (j / 4 * 3 + j % 4 < ([1] : List Nat).length →
            out.getD j 0 % 2 = ([1] : List Nat).getD (j / 4 * 3 + j % 4) 0 ∧
            out.getD j 0 / 2 = ([4, 5, 6, 7] : List Nat).getD j 0 / 2) ∧
          (([1] : List Nat).length ≤ j / 4 * 3 + j % 4 →
            out.getD j 0 = ([4, 5, 6, 7] : List Nat).getD j 0))) :=
  ⟨⟨by decide, by decide, by decide, by decide, by decide, by decide⟩,
    C2_embed_effect.1 [2, 3] [1] (by decide) (by decide) (by decide),
    C2_embed_effect.2 [4, 5, 6, 7] [1] (by decide) (by decide) (by decide) (by decide)⟩

/-! ## Claim C5: decode error cases and byte packing -/

theorem getD_range_map {α : Type} {f : Nat → α} {n i : Nat} (h : i < n) (d : α) :
    ((List.range n).map f).getD i d = f i := by
  simp [List.getD_eq_getElem?_getD, List.getElem?_range h]

/-- C5: frame decoding fails with `HeaderIncomplete` ("Too short for header" /
"Image too small to contain header") if fewer than 32 bits are available, fails
with `PayloadTruncated` ("Truncated payload" / "Image does not contain full
message") if fewer than `32 + 8 * declaredLength` bits are available, and
otherwise returns exactly `declaredLength` bytes, each packed from its
consecutive 8-bit group MSB-first. Both the wav and the image decoders are
covered. -/
theorem C5_decode_frame (bits : List Nat) (hb : ∀ b ∈ bits, b ≤ 1) :
    (bits.length < 32 →
      decodeFrameWav bits = .error .headerIncomplete ∧
      decodeFrameImg bits = .error .headerIncomplete) ∧
    (32 ≤ bits.length → bits.length < 32 + 8 * declaredLen bits →
      decodeFrameWav bits = .error (.payloadTruncated (declaredLen bits) (bits.length - 32)) ∧
      decodeFrameImg bits = .error (.payloadTruncated (declaredLen bits) (bits.length - 32))) ∧
    (32 + 8 * declaredLen bits ≤ bits.length →
      ∃ out, decodeFrameWav bits = .ok out ∧ decodeFrameImg bits = .ok out ∧
        out.length = declaredLen bits ∧
        ∀ i, i < declaredLen bits →
          out.getD i 0 = ∑ j ∈ Finset.range 8, 2 ^ (7 - j) * bits.getD (32 + 8 * i + j) 0) := by
  refine ⟨?_, ?_, ?_⟩
  · intro h
    constructor <;> simp [decodeFrameWav, decodeFrameImg, h]
  · intro h32 htr
    have hrl := readLen32_eq_declaredLen hb h32
    have hcond : bits.length < 32 + readLen32 bits * 8 := by rw [hrl]; omega
    constructor <;>
      · simp [decodeFrameWav, decodeFrameImg, Nat.not_lt.mpr h32, hcond, hrl]
        omega
  · intro hok
    have h32 : 32 ≤ bits.length := by omega
    have hrl := readLen32_eq_declaredLen hb h32
    have hcond : ¬ bits.length < 32 + readLen32 bits * 8 := by rw [hrl]; omega
    -- the group of 8 bits feeding byte i
    have hgroup : ∀ i, i < declaredLen bits →
        ∀ j, j < 8 → (((bits.drop 32).drop (8 * i)).take 8).getD j 0
          = bits.getD (32 + 8 * i + j) 0 := by
      intro i hi j hj
      rw [getD_take hj, getD_drop, getD_drop]
      have : 32 + (8 * i + j) = 32 + 8 * i + j := by omega
      rw [this]
    have hgb : ∀ i, i < declaredLen bits →
        ∀ b ∈ ((bits.drop 32).drop (8 * i)).take 8, b ≤ 1 := by
      intro i _ b hmem
      exact hb b (List.drop_subset _ _ (List.drop_subset _ _ (List.take_subset _ _ hmem)))
    have hglen : ∀ i, i < declaredLen bits →
        (((bits.drop 32).drop (8 * i)).take 8).length = 8 := by
      intro i hi
      simp only [List.length_take, List.length_drop]
      omega
    have hbyte : ∀ i, i < declaredLen bits →
        packByteWav (((bits.drop 32).drop (8 * i)).take 8)
          = ∑ j ∈ Finset.range 8, 2 ^ (7 - j) * bits.getD (32 + 8 * i + j) 0 := by
      intro i hi
      rw [packByteWav_eq_sum _ (hgb i hi), hglen i hi]
      apply Finset.sum_congr rfl
      intro j hj
      rw [Finset.mem_range] at hj
      rw [hgroup i hi j hj]
    refine ⟨(List.range (readLen32 bits)).map
      (fun i => packByteWav (((bits.drop 32).drop (8 * i)).take 8)), ?_, ?_, ?_, ?_⟩
    · simp [decodeFrameWav, Nat.not_lt.mpr h32, hcond]
    · simp only [decodeFrameImg, Nat.not_lt.mpr h32, if_false, hcond]
      congr 1
      apply List.map_congr_left
      intro i hi
      rw [List.mem_range] at hi
      rw [hrl] at hi
      exact (packByteImg_eq_packByteWav _ (hgb i hi)).symm ▸ rfl
    · simp [hrl]
    · intro i hi
      rw [getD_range_map (by rw [hrl]; exact hi)]
      exact hbyte i hi

/-- Witness for C5 at 40 zero bits (declared length 0, success case; the other
two cases have vacuous antecedents there). -/
theorem C5_decode_frame_witness :
    (∀ b ∈ List.replicate 40 (0 : Nat), b ≤ 1) ∧
    ((List.replicate 40 (0 : Nat)).length < 32 →
      decodeFrameWav (List.replicate 40 0) = .error .headerIncomplete ∧
      decodeFrameImg (List.replicate 40 0) = .error .headerIncomplete) ∧
    (32 ≤ (List.replicate 40 (0 : Nat)).length →
      (List.replicate 40 (0 : Nat)).length < 32 + 8 * declaredLen (List.replicate 40 0) →
      decodeFrameWav (List.replicate 40 0)
        = .error (.payloadTruncated (declaredLen (List.replicate 40 0))
            ((List.replicate 40 (0 : Nat)).length - 32)) ∧
      decodeFrameImg (List.replicate 40 0)
        = .error (.payloadTruncated (declaredLen (List.replicate 40 0))
            ((List.replicate 40 (0 : Nat)).length - 32))) ∧
    (32 + 8 * declaredLen (List.replicate 40 0) ≤ (List.replicate 40 (0 : Nat)).length →
      ∃ out, decodeFrameWav (List.replicate 40 0) = .ok out ∧
        decodeFrameImg (List.replicate 40 0) = .ok out ∧
        out.length = declaredLen (List.replicate 40 0) ∧
        ∀ i, i < declaredLen (List.replicate 40 0) →
          out.getD i 0 = ∑ j ∈ Finset.range 8,
            2 ^ (7 - j) * (List.replicate 40 (0 : Nat)).getD (32 + 8 * i + j) 0) :=
  ⟨by decide, C5_decode_frame (List.replicate 40 0) (by decide)⟩

/-! ## Round trip on the wav LSB path -/

theorem encodeBits_le_one {msg : List Nat} : ∀ b ∈ encodeBits msg, b ≤ 1 := by
  intro b hb
  simp only [encodeBits, List.mem_append, List.mem_flatten, List.mem_map] at hb
  rcases hb with h | ⟨l, ⟨x, _, rfl⟩, hbl⟩
  · exact bitsBE_le_one h
  · exact bitsBE_le_one hbl

theorem encodeBits_length (msg : List Nat) : (encodeBits msg).length = 32 + 8 * msg.length := by
  rw [encodeBits, List.length_append, bitsBE_length, msgBits_length]

theorem lsb_of_or_masked (s b : Nat) (hb : b ≤ 1) : ((s &&& 0xFFFE) ||| b) &&& 1 = b := by
  have ht : ((s &&& 0xFFFE) ||| b).testBit 0 = b.testBit 0 := by
    rw [Nat.testBit_or, Nat.testBit_and]
    have hm : (0xFFFE : Nat).testBit 0 = false := by decide
    rw [hm, Bool.and_false, Bool.false_or]
  rw [Nat.testBit_zero, Nat.testBit_zero] at ht
  have hiff := decide_eq_decide.mp ht
  have h1 := Nat.and_one_is_mod ((s &&& 0xFFFE) ||| b)
  omega

theorem extract_embed (samples bits : List Nat) (hb : ∀ b ∈ bits, b ≤ 1)
    (hlen : bits.length ≤ samples.length) :
    (embedSamples samples bits).map (fun s => s &&& 1)
      = bits ++ (samples.drop bits.length).map (fun s => s &&& 1) := by
  induction bits generalizing samples with
  | nil => cases samples <;> rfl
  | cons b bs ih =>
    cases samples with
    | nil => simp at hlen
    | cons s ss =>
      have hunf : embedSamples (s :: ss) (b :: bs)
          = ((s &&& 0xFFFE) ||| b) :: embedSamples ss bs := rfl
      rw [hunf]
      simp only [List.map_cons, List.length_cons, List.drop_succ_cons, List.cons_append]
      congr 1
      · exact lsb_of_or_masked s b (hb b (by simp))
      · exact ih ss (fun x hx => hb x (by simp [hx])) (by simp at hlen; omega)

theorem readLen32_encode (msg rest : List Nat) (hlen : msg.length < 2 ^ 32) :
    readLen32 (encodeBits msg ++ rest) = msg.length := by
  rw [readLen32, encodeBits, List.append_assoc,
    List.take_left' (by rw [bitsBE_length]), foldl_lor_bitsBE]
  omega

theorem msgBits_group (msg : List Nat) : ∀ (i : Nat) (rest : List Nat), i < msg.length →
    (((msg.map fun b => bitsBE 8 b).flatten ++ rest).drop (8 * i)).take 8
      = bitsBE 8 (msg.getD i 0) := by
  induction msg with
  | nil => intro i rest hi; simp at hi
  | cons b ms ih =>
    intro i rest hi
    cases i with
    | zero =>
      simp only [List.map_cons, List.flatten_cons, Nat.mul_zero, List.drop_zero,
        List.cons_append, List.append_assoc]
      rw [List.take_left' (by rw [bitsBE_length])]
      rfl
    | succ k =>
      simp only [List.map_cons, List.flatten_cons, List.append_assoc]
      have hidx : 8 * (k + 1) = 8 + 8 * k := by ring
      rw [hidx, ← List.drop_drop, List.drop_left' (by rw [bitsBE_length])]
      simpa using ih k rest (by simp at hi; omega)

theorem range_map_getD (l : List Nat) :
    (List.range l.length).map (fun i => l.getD i 0) = l := by
  apply List.ext_getElem (by simp)
  intro i h1 h2
  simp [List.getD_eq_getElem?_getD, List.getElem?_eq_getElem h2]

theorem decode_encode (msg rest : List Nat) (hmsg : ∀ b ∈ msg, b < 256)
    (hlen : msg.length < 2 ^ 32) :
    decodeFrameWav (encodeBits msg ++ rest) = .ok msg := by
  have hlentot : (encodeBits msg ++ rest).length = 32 + 8 * msg.length + rest.length := by
    rw [List.length_append, encodeBits_length]
  have hrl := readLen32_encode msg rest hlen
  rw [decodeFrameWav]
  rw [if_neg (by omega), hrl, if_neg (by omega)]
  congr 1
  have hdrop : (encodeBits msg ++ rest).drop 32
      = (msg.map fun b => bitsBE 8 b).flatten ++ rest := by
    rw [encodeBits, List.append_assoc, List.drop_left' (by rw [bitsBE_length])]
  have hmap : ∀ i ∈ List.range msg.length,
      packByteWav ((((encodeBits msg ++ rest).drop 32).drop (8 * i)).take 8)
        = msg.getD i 0 := by
    intro i hi
    rw [List.mem_range] at hi
    rw [hdrop, msgBits_group msg i rest hi]
    have hb : msg.getD i 0 < 256 := by
      have : msg.getD i 0 = msg.get ⟨i, hi⟩ := by
        simp [List.getD_eq_getElem?_getD, List.getElem?_eq_getElem hi]
      rw [this]
      exact hmsg _ (List.get_mem msg _ _)
    exact packByteWav_bitsBE hb
  rw [List.map_congr_left hmap]
  exact range_map_getD msg

/-- Round trip on the wav path: for any payload and any 16-bit sample list with
enough capacity, `find_wav` recovers exactly the payload `hide_wav` embedded.
Covers the empty payload. -/
theorem wav_roundtrip (samples msg : List Nat) (hmsg : ∀ b ∈ msg, b < 256)
    (hlen : msg.length < 2 ^ 32)
    (hcap : 32 + 8 * msg.length ≤ samples.length) :
    ∃ out, hide_wav true 16 samples msg = .ok out ∧ find_wav true 16 out = .ok msg := by
  have hblen : (encodeBits msg).length = 32 + 8 * msg.length := encodeBits_length msg
  have hcap' : ¬ (encodeBits msg).length > samples.length := by omega
  refine ⟨embedSamples samples (encodeBits msg), ?_, ?_⟩
  · rw [hide_wav, if_neg (by simp), if_neg hcap']
  · rw [find_wav, if_neg (by simp)]
    rw [extract_embed samples (encodeBits msg) encodeBits_le_one (by omega)]
    exact decode_encode msg _ hmsg hlen

/-! ## JPEG marker multiplexer (`picture/jpg/marker_hijacking.rs`) -/

/-- Big-endian bytes of a u16 value (`u16::to_be_bytes`). -/
def be16 (v : Nat) : List Nat := [(v >>> 8) &&& 0xFF, v &&& 0xFF]

/-- Translation of `make_app_segment` (marker_hijacking.rs lines 10-18): marker
framing `0xFF, marker, lenHi, lenLo, payload` with `len = payload.len() + 2`
cast to u16 (reduced mod 2^16 like the source's cast). -/
def make_app_segment (app_marker : Nat) (payload : List Nat) : List Nat :=
  0xFF :: app_marker :: (be16 ((payload.length + 2) % 65536) ++ payload)

/-- Translation of `find_sos_index` (lines 22-51), fuel-based (the loop
advances `i` by at least 1 each iteration, so `buf.length` units of fuel
always suffice). Byte reads are `getD _ 0`; the source indexes within bounds
established by the loop guards. -/
def findSosGo (fuel : Nat) (buf : List Nat) (i : Nat) : Option Nat :=
  match fuel with
  | 0 => none
  | fuel + 1 =>
    if i + 1 < buf.length then
      if buf.getD i 0 ≠ 0xFF then findSosGo fuel buf (i + 1)
      else
        if buf.getD (i + 1) 0 = 0xDA then some i
        else if buf.getD (i + 1) 0 = 0 ∨ (0xD0 ≤ buf.getD (i + 1) 0 ∧ buf.getD (i + 1) 0 ≤ 0xD7)
          then findSosGo fuel buf (i + 2)
        else if i + 3 ≥ buf.length then none
        else findSosGo fuel buf (i + 2 + (256 * buf.getD (i + 2) 0 + buf.getD (i + 3) 0))
    else none

def find_sos_index (buf : List Nat) : Option Nat := findSosGo buf.length buf 2

/-- Translation of `collect_app_segments` (lines 53-79), fuel-based; returns
`(marker, segStart, segEnd)` triples in scan order. -/
def collectSegsGo (fuel : Nat) (buf : List Nat) (i : Nat) : List (Nat × Nat × Nat) :=
  match fuel with
  | 0 => []
  | fuel + 1 =>
    if i + 1 < buf.length then
      if buf.getD i 0 ≠ 0xFF then collectSegsGo fuel buf (i + 1)
      else
        if buf.getD (i + 1) 0 = 0xDA then []
        else if buf.getD (i + 1) 0 = 0 ∨ (0xD0 ≤ buf.getD (i + 1) 0 ∧ buf.getD (i + 1) 0 ≤ 0xD7)
          then collectSegsGo fuel buf (i + 2)
        else if i + 3 ≥ buf.length then []
        else
          if i + 2 + (256 * buf.getD (i + 2) 0 + buf.getD (i + 3) 0) > buf.length then []
          else (buf.getD (i + 1) 0, i, i + 2 + (256 * buf.getD (i + 2) 0 + buf.getD (i + 3) 0))
            :: collectSegsGo fuel buf (i + 2 + (256 * buf.getD (i + 2) 0 + buf.getD (i + 3) 0))
    else []

def collect_app_segments (buf : List Nat) : List (Nat × Nat × Nat) :=
  collectSegsGo buf.length buf 2

/-- Byte-range slice `buf[s..e]` (the source always slices within bounds at
the call sites modelled here). -/
def slice (buf : List Nat) (s e : Nat) : List Nat := (buf.drop s).take (e - s)

/-- Fuel-based translation of `payload.chunks(n)`: nonempty chunks of size at
most `n`, in order. Every call site has `n > 0` (the source asserts it). -/
def chunksOfGo : Nat → Nat → List Nat → List (List Nat)
  | 0, _, _ => []
  | _, _, [] => []
  | fuel + 1, n, l => l.take n :: chunksOfGo fuel n (l.drop n)

def chunksOf (n : Nat) (l : List Nat) : List (List Nat) := chunksOfGo l.length n l

/-- Translation of `chunk_payload_with_identifier` (lines 81-96). The
`assert!(max_body > 0)` ("identifier too large for APPn segment") is a panic
in the source; the model returns `[]` there. The sequence tag `i as u16` and
`total` are reduced mod 2^16 exactly like the source's casts. -/
def chunk_payload_with_identifier (payload identifier : List Nat) : List (List Nat) :=
  if 65533 - (identifier.length + 4) = 0 then []
  else
    (chunksOf (65533 - (identifier.length + 4)) payload).enum.map fun p =>
      identifier ++ (be16 (p.1 % 65536)
        ++ (be16 (((payload.length + (65533 - (identifier.length + 4)) - 1)
            / (65533 - (identifier.length + 4))) % 65536) ++ p.2))

/-- Translation of `insert_or_replace_appn` (lines 98-147). Returns the freshly
built buffer; the only failure is the scanner's (`noSosMarker`, the source's
io::Error "no SOS marker found in JPEG"). -/
def insert_or_replace_appn (original : List Nat) (app_marker : Nat)
    (identifier : Option (List Nat)) (payload : List Nat) :
    Except StegError (List Nat) :=
  match find_sos_index original with
  | none => .error .noSosMarker
  | some sos_idx =>
    .ok (((chunk_payload_with_identifier payload (identifier.getD [])).foldl
        (fun acc c => acc ++ make_app_segment app_marker c)
        ((collect_app_segments original).foldl (fun acc seg =>
          if seg.2.1 + 4 > seg.2.2 then acc
          else
            if (match identifier with
                | some id => id.isPrefixOf (slice original (seg.2.1 + 4) seg.2.2)
                | none => false)
              then acc else acc ++ slice original seg.2.1 seg.2.2)
          (slice original 0 2)))
      ++ original.drop sos_idx)

/-- Chunk-collection loop of `extract_payload_from_bytes` (lines 171-190):
walks the segment list, skipping non-matching payloads, parsing
`(seq, total, data)` from matching ones, failing on a too-small header
("found matching segment with too-small header"). -/
def collectChunks (original identifier : List Nat) :
    List (Nat × Nat × Nat) → Except StegError (List (Nat × Nat × List Nat))
  | [] => .ok []
  | seg :: restSegs =>
    if seg.2.1 + 4 > seg.2.2 then collectChunks original identifier restSegs
    else
      if ¬ identifier.isPrefixOf (slice original (seg.2.1 + 4) seg.2.2) then
        collectChunks original identifier restSegs
      else
        if (slice original (seg.2.1 + 4) seg.2.2).length < identifier.length + 4 then
          .error .tooSmallHeader
        else
          match collectChunks original identifier restSegs with
          | .error e => .error e
          | .ok cs => .ok ((256 * (slice original (seg.2.1 + 4) seg.2.2).getD identifier.length 0
                + (slice original (seg.2.1 + 4) seg.2.2).getD (identifier.length + 1) 0,
              256 * (slice original (seg.2.1 + 4) seg.2.2).getD (identifier.length + 2) 0
                + (slice original (seg.2.1 + 4) seg.2.2).getD (identifier.length + 3) 0,
              (slice original (seg.2.1 + 4) seg.2.2).drop (identifier.length + 4)) :: cs)

/-- Slot-placement loop of the extractor (lines 209-222):
`placed[seq] = Some(data)` with the bounds check
`seq_idx >= expected_total`, later writes overwriting earlier ones. -/
def placeChunks : List (Nat × Nat × List Nat) → List (Option (List Nat))
    → Except StegError (List (Option (List Nat)))
  | [], placed => .ok placed
  | c :: cs, placed =>
    if c.1 ≥ placed.length then .error (.seqOutOfRange c.1 placed.length)
    else placeChunks cs (placed.set c.1 (some c.2.2))

/-- First empty slot scan of the extractor (lines 225-229). -/
def firstNone : List (Option (List Nat)) → Nat → Option Nat
  | [], _ => none
  | none :: _, i => some i
  | some _ :: rest, i => firstNone rest (i + 1)

/-- Reassembly tail of `extract_payload_from_bytes` (lines 196-239) on the
collected chunk list: expected total is the maximum reported total,
`InvalidTotal` on zero, slot placement with the `SequenceOutOfRange` bounds
check and last-writer-wins duplicates, `MissingChunk` at the first empty slot,
then concatenation in sequence order. (The source reaches this code only with
a nonempty chunk list — it returns "not found" first; for `[]` the fold's
`Option` accumulator stays `none` and this model returns `ok none`.) -/
def reassemble (chunks : List (Nat × Nat × List Nat)) :
    Except StegError (Option (List Nat)) :=
  let expOpt := chunks.foldl (fun cur c =>
    match cur with
    | none => some c.2.1
    | some v => some (max v c.2.1)) none
  match expOpt with
  | none => .ok none
  | some expected_total =>
    if expected_total = 0 then .error .invalidTotal
    else
      match placeChunks chunks (List.replicate expected_total none) with
      | .error e => .error e
      | .ok placed =>
        match firstNone placed 0 with
        | some i => .error (.missingChunk i)
        | none => .ok (some (placed.foldl (fun out s => out ++ s.getD []) []))

/-- Translation of `extract_payload_from_bytes` (lines 167-240): collect the
identifier-matching chunks among the pre-scan segments, report "not found"
(`ok none`) if there are none, otherwise reassemble. -/
def extract_payload_from_bytes (original identifier : List Nat) :
    Except StegError (Option (List Nat)) :=
  match collectChunks original identifier (collect_app_segments original) with
  | .error e => .error e
  | .ok chunks => if chunks.isEmpty then .ok none else reassemble chunks

/-- Identifier `Ducky\0` used by the jpg `hide`/`find` wrappers (lines 278,
295). -/
def duckyId : List Nat := [0x44, 0x75, 0x63, 0x6B, 0x79, 0x00]

/-- Big-endian bytes of a u32 value (`u32::to_be_bytes`). -/
def be32 (v : Nat) : List Nat :=
  [(v >>> 24) &&& 0xFF, (v >>> 16) &&& 0xFF, (v >>> 8) &&& 0xFF, v &&& 0xFF]

/-- Translation of the jpg `hide` wrapper (lines 257-285) from the point where
the input file's bytes are in memory: a 4-byte big-endian length header plus
the message bytes are inserted as APP11 (0xEB) segments tagged `Ducky\0`. -/
def jpgHide (original msg : List Nat) : Except StegError (List Nat) :=
  if msg.length > 4294967295 then .error .messageTooLarge
  else insert_or_replace_appn original 0xEB (some duckyId) (be32 msg.length ++ msg)

/-- Translation of the jpg `find` wrapper (lines 289-320): extraction, length
header parse, then `String::from_utf8(..).map_err(..)`. `.ok` carries the
recovered string's bytes; `.error .invalidUtf8` is the source's `Err` holding
the placeholder "<invalid utf8>"; `.error .notFound` is "no matching segments
found". -/
def jpgFind (buf : List Nat) : Except StegError (List Nat) :=
  match extract_payload_from_bytes buf duckyId with
  | .error e => .error e
  | .ok none => .error .notFound
  | .ok (some payload) =>
    if payload.length < 4 then .error .payloadHeaderTooSmall
    else
      let len := 16777216 * payload.getD 0 0 + 65536 * payload.getD 1 0
        + 256 * payload.getD 2 0 + payload.getD 3 0
      if payload.length < 4 + len then .error (.payloadShorter len (payload.length - 4))
      else
        let msg_bytes := (payload.drop 4).take len
        if isValidUtf8 msg_bytes then .ok msg_bytes else .error .invalidUtf8

/-! ## Counterexamples found against the claims -/

instance exceptDecEq {ε α : Type} [DecidableEq ε] [DecidableEq α] :
    DecidableEq (Except ε α) := fun x y =>
  match x, y with
  | .ok a, .ok b =>
    match decEq a b with
    | isTrue h => isTrue (by rw [h])
    | isFalse h => isFalse (fun hc => h (by cases hc; rfl))
  | .error a, .error b =>
    match decEq a b with
    | isTrue h => isTrue (by rw [h])
    | isFalse h => isFalse (fun hc => h (by cases hc; rfl))
  | .ok _, .error _ => isFalse (fun hc => by cases hc)
  | .error _, .ok _ => isFalse (fun hc => by cases hc)

/-- Counterexample to C1 as stated: on the marker-multiplex path the empty
payload does not round-trip through `insert_or_replace_appn` /
`extract_payload_from_bytes`. Chunking an empty payload produces zero chunks,
so the hide path appends no segment and the find path reports "not found"
(`ok none`) instead of recovering an empty payload. -/
theorem C1_empty_marker_counterexample :
    insert_or_replace_appn [0xFF, 0xD8, 0xFF, 0xDA, 0x00, 0x00, 0xFF, 0xD9] 0xEB
        (some duckyId) []
      = .ok [0xFF, 0xD8, 0xFF, 0xDA, 0x00, 0x00, 0xFF, 0xD9] ∧
    extract_payload_from_bytes [0xFF, 0xD8, 0xFF, 0xDA, 0x00, 0x00, 0xFF, 0xD9] duckyId
      = .ok none ∧
    (Except.ok none : Except StegError (Option (List Nat))) ≠ .ok (some []) :=
  ⟨by decide, by decide, by decide⟩

/-- Counterexample to C6 as stated: the PNG-native `hide` never rejects a
wrong color mode with UnsupportedFormat. For a grayscale buffer (stride 1,
11 bytes) and the empty message, the extension check and the capacity check
(32 bits needed, 33 claimed available) both pass, and the embed loop then hits
the out-of-bounds index `chunk[1]` — a panic in the source, not an
UnsupportedFormat rejection. -/
theorem C6_color_mode_counterexample :
    hidePng "png" 1 (List.replicate 11 0) [] = .error .panicked ∧
    hidePng "png" 1 (List.replicate 11 0) [] ≠ .error .unsupportedFormat :=
  ⟨by decide, by decide⟩

/-- Counterexample to C8 as stated: the find path's "not found" is not
restricted to buffers on which the scan succeeds. On `[0xFF, 0xD8]` (start of
image only, no start-of-scan) the scanner fails (`find_sos_index = none`,
malformed), yet `extract_payload_from_bytes` — which never runs
`find_sos_index` — reports "not found" (`ok none`) rather than an error. -/
theorem C8_not_found_counterexample :
    find_sos_index [0xFF, 0xD8] = none ∧
    extract_payload_from_bytes [0xFF, 0xD8] duckyId = .ok none :=
  ⟨by decide, by decide⟩

/-- Counterexample to C10 as stated: recovered payload bytes that fail UTF-8
validation are surfaced as a hard error (`Err` carrying the placeholder text
"<invalid utf8>"), not as a placeholder value. Hiding the single byte 0xFF in
a 14-pixel RGBA image succeeds, the frame decoder recovers exactly `[0xFF]`,
and `find` then returns the error — while the claim requires an `ok` result. -/
theorem C10_invalid_utf8_counterexample :
    (hideImage (List.replicate 56 0) [0xFF]).bind findImage = .error .invalidUtf8 ∧
    (hideImage (List.replicate 56 0) [0xFF]).bind
      (fun out => decodeFrameImg (collectLsb 4 out)) = .ok [0xFF] :=
  ⟨by decide, by decide⟩

/-! ## Claim C9: chunk splitting invariants -/

/-- Big-endian sequence tag stored in a produced chunk, read back from the two
bytes after the identifier (the layout `chunk_payload_with_identifier`
writes). -/
def chunkSeqTag (identifier chunk : List Nat) : Nat :=
  256 * chunk.getD identifier.length 0 + chunk.getD (identifier.length + 1) 0

/-- Big-endian total tag stored in a produced chunk (two bytes after the
sequence tag). -/
def chunkTotTag (identifier chunk : List Nat) : Nat :=
  256 * chunk.getD (identifier.length + 2) 0 + chunk.getD (identifier.length + 3) 0

theorem chunksOfGo_count {n : Nat} (hn : 0 < n) : ∀ (fuel : Nat) (l : List Nat),
    l.length ≤ fuel → (chunksOfGo fuel n l).length = (l.length + n - 1) / n := by
  intro fuel
  induction fuel with
  | zero =>
    intro l hl
    have h0 : l = [] := List.eq_nil_of_length_eq_zero (by omega)
    subst h0
    show (0 : Nat) = (0 + n - 1) / n
    rw [Nat.div_eq_of_lt (by omega)]
  | succ k ih =>
    intro l hl
    cases l with
    | nil =>
      show (0 : Nat) = (0 + n - 1) / n
      rw [Nat.div_eq_of_lt (by omega)]
    | cons x xs =>
      have hstep : chunksOfGo (k + 1) n (x :: xs)
          = (x :: xs).take n :: chunksOfGo k n ((x :: xs).drop n) := rfl
      have hdl : ((x :: xs).drop n).length = (x :: xs).length - n := List.length_drop n _
      rw [hstep, List.length_cons,
        ih _ (by rw [hdl]; simp only [List.length_cons] at hl ⊢; omega), hdl]
      have hL : 1 ≤ (x :: xs).length := by simp
      by_cases hcase : (x :: xs).length ≤ n
      · have h1 : (x :: xs).length - n + n - 1 = n - 1 := by omega
        rw [h1, Nat.div_eq_of_lt (by omega)]
        have h2 : (x :: xs).length + n - 1 = ((x :: xs).length - 1) + n := by omega
        rw [h2, Nat.add_div_right _ hn, Nat.div_eq_of_lt (by omega)]
      · have h1 : (x :: xs).length - n + n - 1 = (x :: xs).length - 1 := by omega
        have h2 : (x :: xs).length + n - 1 = ((x :: xs).length - 1) + n := by omega
        rw [h1, h2, Nat.add_div_right _ hn]

theorem chunksOfGo_flatten {n : Nat} (hn : 0 < n) : ∀ (fuel : Nat) (l : List Nat),
    l.length ≤ fuel → (chunksOfGo fuel n l).flatten = l := by
  intro fuel
  induction fuel with
  | zero =>
    intro l hl
    have h0 : l = [] := List.eq_nil_of_length_eq_zero (by omega)
    subst h0; rfl
  | succ k ih =>
    intro l hl
    cases l with
    | nil => rfl
    | cons x xs =>
      have hstep : chunksOfGo (k + 1) n (x :: xs)
          = (x :: xs).take n :: chunksOfGo k n ((x :: xs).drop n) := rfl
      rw [hstep, List.flatten_cons,
        ih _ (by rw [List.length_drop]; simp only [List.length_cons] at hl ⊢; omega),
        List.take_append_drop]

theorem chunksOfGo_size {n : Nat} : ∀ (fuel : Nat) (l ch : List Nat),
    ch ∈ chunksOfGo fuel n l → ch.length ≤ n := by
  intro fuel
  induction fuel with
  | zero => intro l ch h; simp [chunksOfGo] at h
  | succ k ih =>
    intro l ch h
    cases l with
    | nil => simp [chunksOfGo] at h
    | cons x xs =>
      rw [show chunksOfGo (k + 1) n (x :: xs)
          = (x :: xs).take n :: chunksOfGo k n ((x :: xs).drop n) from rfl] at h
      rcases List.mem_cons.mp h with h1 | h2
      · subst h1; rw [List.length_take]; omega
      · exact ih _ _ h2

theorem chunksOf_count {n : Nat} (hn : 0 < n) (l : List Nat) :
    (chunksOf n l).length = (l.length + n - 1) / n :=
  chunksOfGo_count hn _ _ (Nat.le_refl _)

theorem chunksOf_flatten {n : Nat} (hn : 0 < n) (l : List Nat) :
    (chunksOf n l).flatten = l :=
  chunksOfGo_flatten hn _ _ (Nat.le_refl _)

theorem be16_read (v : Nat) (rest : List Nat) :
    256 * ((be16 v ++ rest).getD 0 0) + (be16 v ++ rest).getD 1 0 = v % 65536 := by
  show 256 * ((v >>> 8) &&& 0xFF) + (v &&& 0xFF) = v % 65536
  have hff : (0xFF : Nat) = 2 ^ 8 - 1 := by norm_num
  have h1 : (v >>> 8) &&& 0xFF = v / 256 % 256 := by
    rw [Nat.shiftRight_eq_div_pow, hff, Nat.and_pow_two_sub_one_eq_mod]
  have h2 : v &&& 0xFF = v % 256 := by
    rw [hff, Nat.and_pow_two_sub_one_eq_mod]
  rw [h1, h2]
  omega

/-- Tag readings of every produced chunk: the sequence tag is the chunk's
0-based index reduced mod 2^16 and the total tag is `ceil(n / maxBody)`
reduced mod 2^16 (both wrap exactly as the source's u16 casts do). -/
theorem chunk_payload_tags (payload identifier : List Nat)
    (hmb : 0 < 65533 - (identifier.length + 4)) (k : Nat)
    (hk : k < (chunk_payload_with_identifier payload identifier).length) :
    chunkSeqTag identifier ((chunk_payload_with_identifier payload identifier).getD k [])
      = k % 65536 ∧
    chunkTotTag identifier ((chunk_payload_with_identifier payload identifier).getD k [])
      = ((payload.length + (65533 - (identifier.length + 4)) - 1)
          / (65533 - (identifier.length + 4))) % 65536 := by
  have hunf : chunk_payload_with_identifier payload identifier
      = (chunksOf (65533 - (identifier.length + 4)) payload).enum.map (fun p =>
          identifier ++ (be16 (p.1 % 65536)
            ++ (be16 (((payload.length + (65533 - (identifier.length + 4)) - 1)
                / (65533 - (identifier.length + 4))) % 65536) ++ p.2))) := by
    rw [chunk_payload_with_identifier, if_neg (by omega)]
  rw [hunf] at hk ⊢
  have hk' : k < (chunksOf (65533 - (identifier.length + 4)) payload).length := by
    simpa using hk
  have hbody := List.getElem?_eq_getElem hk'
  rw [List.getD_eq_getElem?_getD, List.getElem?_map, List.getElem?_enum, hbody]
  simp only [Option.map_some', Option.getD_some]
  set X := be16 (k % 65536)
    ++ (be16 (((payload.length + (65533 - (identifier.length + 4)) - 1)
        / (65533 - (identifier.length + 4))) % 65536)
      ++ (chunksOf (65533 - (identifier.length + 4)) payload)[k]) with hXdef
  constructor
  · rw [chunkSeqTag, getD_append_right (Nat.le_refl _),
      getD_append_right (Nat.le_succ_of_le (Nat.le_refl _))]
    have e0 : identifier.length - identifier.length = 0 := by omega
    have e1 : identifier.length + 1 - identifier.length = 1 := by omega
    rw [e0, e1, hXdef, be16_read]
    omega
  · rw [chunkTotTag,
      @getD_append_right identifier X (identifier.length + 2) (by omega) 0,
      @getD_append_right identifier X (identifier.length + 3) (by omega) 0]
    have e2 : identifier.length + 2 - identifier.length = 2 := by omega
    have e3 : identifier.length + 3 - identifier.length = 3 := by omega
    rw [e2, e3, hXdef]
    have hX23 : ∀ d : Nat,
        (be16 (k % 65536) ++ (be16 (((payload.length + (65533 - (identifier.length + 4)) - 1)
            / (65533 - (identifier.length + 4))) % 65536)
          ++ (chunksOf (65533 - (identifier.length + 4)) payload)[k])).getD (2 + d) 0
        = (be16 (((payload.length + (65533 - (identifier.length + 4)) - 1)
            / (65533 - (identifier.length + 4))) % 65536)
          ++ (chunksOf (65533 - (identifier.length + 4)) payload)[k]).getD d 0 := by
      intro d
      rw [getD_append_right (by show (be16 _).length ≤ 2 + d; rw [show (be16 (k % 65536)).length = 2 from rfl]; omega)]
      congr 1
      rw [show (be16 (k % 65536)).length = 2 from rfl]
      omega
    rw [show (3 : Nat) = 2 + 1 from rfl, hX23 1, show (2 : Nat) = 2 + 0 from rfl, hX23 0,
      be16_read]
    omega

/-- C9 (amended): every multiplex operation splits an `n`-byte payload into
exactly `ceil(n / maxChunkBody)` chunks (a total function — chunking never
fails for any payload length, and an empty payload yields zero chunks), each
tagged with the shared total; provided the chunk count fits in a u16
(`count ≤ 65535`, which the source's casts require), each chunk's sequence tag
equals its 0-based index and `sequence < total` holds for every produced
chunk. -/
theorem C9_chunking (payload identifier : List Nat)
    (hmb : 0 < 65533 - (identifier.length + 4)) :
    (chunk_payload_with_identifier payload identifier).length
      = (payload.length + (65533 - (identifier.length + 4)) - 1)
          / (65533 - (identifier.length + 4)) ∧
    (payload = [] → chunk_payload_with_identifier payload identifier = []) ∧
    ((payload.length + (65533 - (identifier.length + 4)) - 1)
        / (65533 - (identifier.length + 4)) ≤ 65535 →
      ∀ k, k < (chunk_payload_with_identifier payload identifier).length →
        chunkSeqTag identifier
            ((chunk_payload_with_identifier payload identifier).getD k []) = k ∧
        chunkTotTag identifier
            ((chunk_payload_with_identifier payload identifier).getD k [])
          = (payload.length + (65533 - (identifier.length + 4)) - 1)
              / (65533 - (identifier.length + 4)) ∧
        chunkSeqTag identifier
            ((chunk_payload_with_identifier payload identifier).getD k [])
          < chunkTotTag identifier
              ((chunk_payload_with_identifier payload identifier).getD k [])) := by
  have hcount : (chunk_payload_with_identifier payload identifier).length
      = (payload.length + (65533 - (identifier.length + 4)) - 1)
          / (65533 - (identifier.length + 4)) := by
    rw [chunk_payload_with_identifier, if_neg (by omega)]
    rw [List.length_map, List.enum_length]
    exact chunksOf_count hmb _
  refine ⟨hcount, ?_, ?_⟩
  · intro h0
    subst h0
    rw [chunk_payload_with_identifier, if_neg (by omega)]
    rfl
  · intro hfit k hk
    obtain ⟨hseq, htot⟩ := chunk_payload_tags payload identifier hmb k hk
    rw [hcount] at hk
    have hseq' : chunkSeqTag identifier
        ((chunk_payload_with_identifier payload identifier).getD k []) = k := by
      rw [hseq]; omega
    have htot' : chunkTotTag identifier
        ((chunk_payload_with_identifier payload identifier).getD k [])
        = (payload.length + (65533 - (identifier.length + 4)) - 1)
            / (65533 - (identifier.length + 4)) := by
      rw [htot]; omega
    exact ⟨hseq', htot', by omega⟩

/-- Witness for C9 at a 5-byte payload and the 6-byte `Ducky\0` identifier. -/
theorem C9_chunking_witness :
    (0 < 65533 - (duckyId.length + 4)) ∧
    ((chunk_payload_with_identifier [10, 11, 12, 13, 14] duckyId).length
      = (([10, 11, 12, 13, 14] : List Nat).length + (65533 - (duckyId.length + 4)) - 1)
          / (65533 - (duckyId.length + 4)) ∧
    (([10, 11, 12, 13, 14] : List Nat) = [] →
      chunk_payload_with_identifier [10, 11, 12, 13, 14] duckyId = []) ∧
    ((([10, 11, 12, 13, 14] : List Nat).length + (65533 - (duckyId.length + 4)) - 1)
        / (65533 - (duckyId.length + 4)) ≤ 65535 →
      ∀ k, k < (chunk_payload_with_identifier [10, 11, 12, 13, 14] duckyId).length →
        chunkSeqTag duckyId
            ((chunk_payload_with_identifier [10, 11, 12, 13, 14] duckyId).getD k []) = k ∧
        chunkTotTag duckyId
            ((chunk_payload_with_identifier [10, 11, 12, 13, 14] duckyId).getD k [])
          = (([10, 11, 12, 13, 14] : List Nat).length + (65533 - (duckyId.length + 4)) - 1)
              / (65533 - (duckyId.length + 4)) ∧
        chunkSeqTag duckyId
            ((chunk_payload_with_identifier [10, 11, 12, 13, 14] duckyId).getD k [])
          < chunkTotTag duckyId
              ((chunk_payload_with_identifier [10, 11, 12, 13, 14] duckyId).getD k []))) :=
  ⟨by decide, C9_chunking [10, 11, 12, 13, 14] duckyId (by decide)⟩

/-- Counterexample to C9 as stated: with a 65528-byte identifier the maximum
chunk body is 1 byte, so a 65536-byte payload is split into 65536 chunks and
the u16 cast wraps the shared total tag to 0 — the first produced chunk has
sequence tag 0 and total tag 0, violating `sequence < total`. -/
theorem C9_wrap_counterexample :
    (chunk_payload_with_identifier (List.replicate 65536 0)
        (List.replicate 65528 7)).length = 65536 ∧
    chunkSeqTag (List.replicate 65528 7)
      ((chunk_payload_with_identifier (List.replicate 65536 0)
          (List.replicate 65528 7)).getD 0 []) = 0 ∧
    chunkTotTag (List.replicate 65528 7)
      ((chunk_payload_with_identifier (List.replicate 65536 0)
          (List.replicate 65528 7)).getD 0 []) = 0 := by
  have hmb : 0 < 65533 - ((List.replicate (65528 : Nat) (7 : Nat)).length + 4) := by
    rw [List.length_replicate]; decide
  have hcount : (chunk_payload_with_identifier (List.replicate 65536 0)
      (List.replicate 65528 7)).length = 65536 := by
    rw [chunk_payload_with_identifier, if_neg (by rw [List.length_replicate]; decide),
      List.length_map, List.enum_length, chunksOf_count (by rw [List.length_replicate]; decide)]
    simp only [List.length_replicate]
  obtain ⟨hseq, htot⟩ := chunk_payload_tags (List.replicate 65536 0)
    (List.replicate 65528 7) hmb 0 (by rw [hcount]; omega)
  refine ⟨hcount, ?_, ?_⟩
  · rw [hseq]
  · rw [htot]
    simp only [List.length_replicate]

/-! ## Claim C6: validation order of the hide operations -/

/-- C6 (amended): every hide operation validates before mutating, in the fixed
order format check → capacity check → mutate. The wav hide rejects a wrong
sample format/depth with UnsupportedFormat before looking at capacity; with
the right format, an oversized payload is rejected with CapacityExceeded
carrying both the needed and the available counts, and an `ok` result is
exactly the embedded buffer under a satisfied capacity check. The image hides
check capacity (and the PNG-native hide its extension, its only format check)
before any mutation; no hide checks the color mode. -/
theorem C6_validation_order :
    (∀ (fmtInt : Bool) (bitsPerSample : Nat) (samples msg : List Nat),
      fmtInt = false ∨ bitsPerSample ≠ 16 →
      hide_wav fmtInt bitsPerSample samples msg = .error .unsupportedFormat) ∧
    (∀ samples msg : List Nat, (encodeBits msg).length > samples.length →
      hide_wav true 16 samples msg
        = .error (.capacityExceeded (encodeBits msg).length samples.length)) ∧
    (∀ samples msg out : List Nat, hide_wav true 16 samples msg = .ok out →
      (encodeBits msg).length ≤ samples.length ∧
      out = embedSamples samples (encodeBits msg)) ∧
    (∀ buf msg : List Nat, (encodeBits msg).length > buf.length / 4 * 3 →
      hideImage buf msg
        = .error (.capacityExceeded (encodeBits msg).length (buf.length / 4 * 3))) ∧
    (∀ (extLower : String) (stride : Nat) (buf msg : List Nat), extLower ≠ "png" →
      hidePng extLower stride buf msg = .error .unsupportedFormat) ∧
    (∀ (stride : Nat) (buf msg : List Nat),
      (encodeBits msg).length > buf.length / stride * 3 →
      hidePng "png" stride buf msg
        = .error (.capacityExceeded (encodeBits msg).length (buf.length / stride * 3))) := by
  refine ⟨?_, ?_, ?_, ?_, ?_, ?_⟩
  · intro fmtInt bitsPerSample samples msg h
    rw [hide_wav, if_pos (by rcases h with h | h <;> simp [h])]
  · intro samples msg h
    rw [hide_wav, if_neg (by simp), if_pos h]
  · intro samples msg out h
    rw [hide_wav, if_neg (by simp)] at h
    by_cases hcap : (encodeBits msg).length > samples.length
    · rw [if_pos hcap] at h; cases h
    · rw [if_neg hcap] at h
      cases h
      exact ⟨by omega, rfl⟩
  · intro buf msg h
    rw [hideImage, if_pos h]
  · intro extLower stride buf msg h
    rw [hidePng, if_pos (by simp [h])]
  · intro stride buf msg h
    rw [hidePng, if_neg (by simp), if_pos h]

/-- Witness for C6 at concrete inputs for each conjunct. -/
theorem C6_validation_order_witness :
    hide_wav false 16 [0, 0] [] = .error .unsupportedFormat ∧
    hide_wav true 16 [0, 0] [] = .error (.capacityExceeded (encodeBits []).length 2) ∧
    ((encodeBits []).length ≤ (List.replicate 32 (0 : Nat)).length ∧
      embedSamples (List.replicate 32 0) (encodeBits [])
        = embedSamples (List.replicate 32 0) (encodeBits [])) ∧
    hideImage [1, 2, 3, 4] [] = .error (.capacityExceeded (encodeBits []).length 3) ∧
    hidePng "jpg" 3 [1, 2, 3] [] = .error .unsupportedFormat ∧
    hidePng "png" 3 [1, 2, 3] [] = .error (.capacityExceeded (encodeBits []).length 3) := by
  refine ⟨?_, ?_, ?_, ?_, ?_, ?_⟩
  · exact C6_validation_order.1 false 16 [0, 0] [] (Or.inl rfl)
  · exact C6_validation_order.2.1 [0, 0] [] (by decide)
  · refine ⟨?_, rfl⟩
    refine (C6_validation_order.2.2.1 (List.replicate 32 0) []
      (embedSamples (List.replicate 32 0) (encodeBits [])) ?_).1
    rw [hide_wav, if_neg (by simp), if_neg (by decide)]
  · exact C6_validation_order.2.2.2.1 [1, 2, 3, 4] [] (by decide)
  · exact C6_validation_order.2.2.2.2.1 "jpg" 3 [1, 2, 3] [] (by decide)
  · exact C6_validation_order.2.2.2.2.2 3 [1, 2, 3] [] (by decide)

/-! ## Claim C8: scan failure vs not-found -/

theorem foldl_maxOpt_some (cs : List (Nat × Nat × List Nat)) : ∀ acc : Nat,
    cs.foldl (fun cur c =>
      match cur with
      | none => some c.2.1
      | some v => some (max v c.2.1)) (some acc)
      = some (cs.foldl (fun a c => max a c.2.1) acc) := by
  induction cs with
  | nil => intro acc; rfl
  | cons c cs ih => intro acc; exact ih (max acc c.2.1)

theorem expOpt_cons (c : Nat × Nat × List Nat) (cs : List (Nat × Nat × List Nat)) :
    (c :: cs).foldl (fun cur x =>
      match cur with
      | none => some x.2.1
      | some v => some (max v x.2.1)) none
      = some (cs.foldl (fun a x => max a x.2.1) c.2.1) := by
  show cs.foldl _ (some c.2.1) = _
  exact foldl_maxOpt_some cs c.2.1

/-- Reassembly of a nonempty chunk list never reports "not found". -/
theorem reassemble_ne_ok_none (c : Nat × Nat × List Nat) (cs : List (Nat × Nat × List Nat)) :
    reassemble (c :: cs) ≠ .ok none := by
  intro h
  rw [reassemble] at h
  simp only [expOpt_cons] at h
  by_cases h0 : cs.foldl (fun a x => max a x.2.1) c.2.1 = 0
  · rw [if_pos h0] at h; cases h
  · rw [if_neg h0] at h
    rcases hpl : placeChunks (c :: cs)
        (List.replicate (cs.foldl (fun a x => max a x.2.1) c.2.1) none) with e | placed
    · simp only [hpl] at h
      cases h
    · simp only [hpl] at h
      rcases hfn : firstNone placed 0 with _ | i
      · simp only [hfn] at h
        simp at h
      · simp only [hfn] at h
        cases h

/-- C8 (amended): on the hide path a scan failure (no start-of-scan, or a
length field running past the buffer end) propagates as the malformed error,
and that is the only failure of `insert_or_replace_appn`; the find path,
however, never runs `find_sos_index` — its "not found" outcome is reported
exactly when no identifier-matching chunk is collected, including on buffers
the scanner would reject as malformed. -/
theorem C8_scan_outcomes :
    (∀ (original : List Nat) (marker : Nat) (id : Option (List Nat)) (payload : List Nat),
      find_sos_index original = none ↔
        insert_or_replace_appn original marker id payload = .error .noSosMarker) ∧
    (∀ original identifier : List Nat,
      collectChunks original identifier (collect_app_segments original) = .ok [] ↔
        extract_payload_from_bytes original identifier = .ok none) := by
  constructor
  · intro original marker id payload
    constructor
    · intro h
      rw [insert_or_replace_appn, h]
    · intro h
      rcases hf : find_sos_index original with _ | sos
      · rfl
      · rw [insert_or_replace_appn, hf] at h
        cases h
  · intro original identifier
    constructor
    · intro h
      rw [extract_payload_from_bytes, h]
      rfl
    · intro h
      rcases hc : collectChunks original identifier (collect_app_segments original)
          with e | chunks
      · rw [extract_payload_from_bytes, hc] at h
        cases h
      · rcases chunks with _ | ⟨c, cs⟩
        · rfl
        · rw [extract_payload_from_bytes, hc] at h
          simp only [List.isEmpty_cons, if_false] at h
          exact absurd h (reassemble_ne_ok_none c cs)

/-- Witness for C8: a minimal well-formed carrier on the hide path, and a
carrier with one unrelated segment on the find path. -/
theorem C8_scan_outcomes_witness :
    (find_sos_index [0x00, 0x00] = none ↔
      insert_or_replace_appn [0x00, 0x00] 0xEB (some duckyId) [1] = .error .noSosMarker) ∧
    (collectChunks [0xFF, 0xD8, 0xFF, 0xE1, 0x00, 0x04, 0x4A, 0x46, 0xFF, 0xDA, 0x00, 0xFF,
        0xD9] duckyId
        (collect_app_segments [0xFF, 0xD8, 0xFF, 0xE1, 0x00, 0x04, 0x4A, 0x46, 0xFF, 0xDA,
          0x00, 0xFF, 0xD9]) = .ok [] ↔
      extract_payload_from_bytes [0xFF, 0xD8, 0xFF, 0xE1, 0x00, 0x04, 0x4A, 0x46, 0xFF, 0xDA,
        0x00, 0xFF, 0xD9] duckyId = .ok none) :=
  ⟨C8_scan_outcomes.1 [0x00, 0x00] 0xEB (some duckyId) [1],
   C8_scan_outcomes.2 [0xFF, 0xD8, 0xFF, 0xE1, 0x00, 0x04, 0x4A, 0x46, 0xFF, 0xDA, 0x00,
     0xFF, 0xD9] duckyId⟩

/-! ## Claim C10: surfacing of invalid UTF-8 -/

/-- C10 (amended): when the recovered payload bytes fail UTF-8 validation the
find operations surface the distinct placeholder — but as an `Err` carrying
the placeholder text "<invalid utf8>" (modelled `.error .invalidUtf8`), not as
an ok value; the frame decoding itself has succeeded, so invalid encoding is
never a framer/decoder failure. With valid UTF-8 the same bytes are returned
as the result. Covers the image and the JPEG find paths. -/
theorem C10_utf8_surfacing :
    (∀ buf bytes : List Nat, decodeFrameImg (collectLsb 4 buf) = .ok bytes →
      (isValidUtf8 bytes = false → findImage buf = .error .invalidUtf8) ∧
      (isValidUtf8 bytes = true → findImage buf = .ok bytes)) ∧
    (∀ buf payload : List Nat,
      extract_payload_from_bytes buf duckyId = .ok (some payload) →
      4 ≤ payload.length →
      4 + (16777216 * payload.getD 0 0 + 65536 * payload.getD 1 0
        + 256 * payload.getD 2 0 + payload.getD 3 0) ≤ payload.length →
      (isValidUtf8 ((payload.drop 4).take (16777216 * payload.getD 0 0
          + 65536 * payload.getD 1 0 + 256 * payload.getD 2 0 + payload.getD 3 0)) = false →
        jpgFind buf = .error .invalidUtf8) ∧
      (isValidUtf8 ((payload.drop 4).take (16777216 * payload.getD 0 0
          + 65536 * payload.getD 1 0 + 256 * payload.getD 2 0 + payload.getD 3 0)) = true →
        jpgFind buf = .ok ((payload.drop 4).take (16777216 * payload.getD 0 0
          + 65536 * payload.getD 1 0 + 256 * payload.getD 2 0 + payload.getD 3 0)))) := by
  constructor
  · intro buf bytes hdec
    constructor <;> intro h <;> rw [findImage, hdec] <;> simp only [h] <;> rfl
  · intro buf payload hex h4 hlen
    have hred : jpgFind buf
        = (if payload.length < 4 then (.error .payloadHeaderTooSmall : Except StegError (List Nat))
          else if payload.length < 4 + (16777216 * payload.getD 0 0 + 65536 * payload.getD 1 0
              + 256 * payload.getD 2 0 + payload.getD 3 0) then
            .error (.payloadShorter (16777216 * payload.getD 0 0 + 65536 * payload.getD 1 0
              + 256 * payload.getD 2 0 + payload.getD 3 0) (payload.length - 4))
          else if isValidUtf8 ((payload.drop 4).take (16777216 * payload.getD 0 0
              + 65536 * payload.getD 1 0 + 256 * payload.getD 2 0 + payload.getD 3 0)) then
            .ok ((payload.drop 4).take (16777216 * payload.getD 0 0 + 65536 * payload.getD 1 0
              + 256 * payload.getD 2 0 + payload.getD 3 0))
          else .error .invalidUtf8) := by
      rw [jpgFind, hex]
    rw [hred, if_neg (by omega), if_neg (by omega)]
    constructor <;> intro h <;> simp only [h] <;> rfl

/-- Witness for C10: an all-zero 11-pixel image decodes to the empty byte
sequence (valid UTF-8), and a crafted JPEG carrying one `Ducky\0` chunk with
message byte 65 satisfies the extraction hypotheses. -/
theorem C10_utf8_surfacing_witness :
    (decodeFrameImg (collectLsb 4 (List.replicate 44 0)) = .ok [] ∧
      ((isValidUtf8 [] = false → findImage (List.replicate 44 0) = .error .invalidUtf8) ∧
       (isValidUtf8 [] = true → findImage (List.replicate 44 0) = .ok []))) ∧
    (extract_payload_from_bytes
        [0xFF, 0xD8, 0xFF, 0xEB, 0x00, 0x11, 0x44, 0x75, 0x63, 0x6B, 0x79, 0x00, 0x00, 0x00,
          0x00, 0x01, 0x00, 0x00, 0x00, 0x01, 0x41, 0xFF, 0xDA, 0x00, 0x00, 0xFF, 0xD9]
        duckyId = .ok (some [0, 0, 0, 1, 65]) ∧
      ((isValidUtf8 ((([0, 0, 0, 1, 65] : List Nat).drop 4).take
          (16777216 * ([0, 0, 0, 1, 65] : List Nat).getD 0 0
            + 65536 * ([0, 0, 0, 1, 65] : List Nat).getD 1 0
            + 256 * ([0, 0, 0, 1, 65] : List Nat).getD 2 0
            + ([0, 0, 0, 1, 65] : List Nat).getD 3 0)) = false →
        jpgFind [0xFF, 0xD8, 0xFF, 0xEB, 0x00, 0x11, 0x44, 0x75, 0x63, 0x6B, 0x79, 0x00,
          0x00, 0x00, 0x00, 0x01, 0x00, 0x00, 0x00, 0x01, 0x41, 0xFF, 0xDA, 0x00, 0x00,
          0xFF, 0xD9] = .error .invalidUtf8) ∧
       (isValidUtf8 ((([0, 0, 0, 1, 65] : List Nat).drop 4).take
          (16777216 * ([0, 0, 0, 1, 65] : List Nat).getD 0 0
            + 65536 * ([0, 0, 0, 1, 65] : List Nat).getD 1 0
            + 256 * ([0, 0, 0, 1, 65] : List Nat).getD 2 0
            + ([0, 0, 0, 1, 65] : List Nat).getD 3 0)) = true →
        jpgFind [0xFF, 0xD8, 0xFF, 0xEB, 0x00, 0x11, 0x44, 0x75, 0x63, 0x6B, 0x79, 0x00,
          0x00, 0x00, 0x00, 0x01, 0x00, 0x00, 0x00, 0x01, 0x41, 0xFF, 0xDA, 0x00, 0x00,
          0xFF, 0xD9] = .ok ((([0, 0, 0, 1, 65] : List Nat).drop 4).take
            (16777216 * ([0, 0, 0, 1, 65] : List Nat).getD 0 0
              + 65536 * ([0, 0, 0, 1, 65] : List Nat).getD 1 0
              + 256 * ([0, 0, 0, 1, 65] : List Nat).getD 2 0
              + ([0, 0, 0, 1, 65] : List Nat).getD 3 0))))) :=
  ⟨⟨by decide, C10_utf8_surfacing.1 (List.replicate 44 0) [] (by decide)⟩,
   ⟨by decide, C10_utf8_surfacing.2
      [0xFF, 0xD8, 0xFF, 0xEB, 0x00, 0x11, 0x44, 0x75, 0x63, 0x6B, 0x79, 0x00, 0x00, 0x00,
        0x00, 0x01, 0x00, 0x00, 0x00, 0x01, 0x41, 0xFF, 0xDA, 0x00, 0x00, 0xFF, 0xD9]
      [0, 0, 0, 1, 65] (by decide) (by decide) (by decide)⟩⟩

/-! ## Claim C7: reassembly semantics -/

/-- Maximum total observed across the collected chunks (specification-side
reading of the extractor's fold). -/
def maxTotal (chunks : List (Nat × Nat × List Nat)) : Nat :=
  chunks.foldl (fun a c => max a c.2.1) 0

/-- Last chunk written into slot `i` (last-writer-wins reading). -/
def lastWrite (chunks : List (Nat × Nat × List Nat)) (i : Nat) : Option (List Nat) :=
  ((chunks.filter fun c => c.1 == i).getLast?).map fun c => c.2.2

theorem getD_set_self {α : Type} {l : List α} {i : Nat} (h : i < l.length) (v d : α) :
    (l.set i v).getD i d = v := by
  simp [List.getD_eq_getElem?_getD, List.getElem?_set_self h]

theorem getD_set_ne {α : Type} {l : List α} {i j : Nat} (h : i ≠ j) (v d : α) :
    (l.set i v).getD j d = l.getD j d := by
  simp [List.getD_eq_getElem?_getD, List.getElem?_set_ne h]

theorem expOpt_eq_maxTotal (c : Nat × Nat × List Nat) (cs : List (Nat × Nat × List Nat)) :
    (c :: cs).foldl (fun cur x =>
      match cur with
      | none => some x.2.1
      | some v => some (max v x.2.1)) none
      = some (maxTotal (c :: cs)) := by
  rw [expOpt_cons, maxTotal, List.foldl_cons]
  congr 1
  congr 1
  omega

theorem foldl_max_ge : ∀ (cs : List (Nat × Nat × List Nat)) (acc : Nat),
    acc ≤ cs.foldl (fun a c => max a c.2.1) acc ∧
    ∀ c ∈ cs, c.2.1 ≤ cs.foldl (fun a c => max a c.2.1) acc := by
  intro cs
  induction cs with
  | nil => intro acc; exact ⟨Nat.le_refl _, by simp⟩
  | cons c cs ih =>
    intro acc
    obtain ⟨h1, h2⟩ := ih (max acc c.2.1)
    rw [List.foldl_cons]
    refine ⟨by omega, ?_⟩
    intro x hx
    rcases List.mem_cons.mp hx with rfl | hx'
    · omega
    · exact h2 x hx'

theorem foldl_max_attained : ∀ (cs : List (Nat × Nat × List Nat)) (acc : Nat),
    cs.foldl (fun a c => max a c.2.1) acc = acc ∨
    ∃ c ∈ cs, cs.foldl (fun a c => max a c.2.1) acc = c.2.1 := by
  intro cs
  induction cs with
  | nil => intro acc; exact Or.inl rfl
  | cons c cs ih =>
    intro acc
    rw [List.foldl_cons]
    rcases ih (max acc c.2.1) with h | ⟨x, hx, hh⟩
    · rw [h]
      rcases Nat.le_total acc c.2.1 with hle | hle
      · right; exact ⟨c, by simp, by omega⟩
      · left; omega
    · right
      exact ⟨x, by simp [hx], hh⟩

theorem placeChunks_spec : ∀ (chunks : List (Nat × Nat × List Nat))
    (placed : List (Option (List Nat))),
    (∀ c ∈ chunks, c.1 < placed.length) →
    ∃ placed', placeChunks chunks placed = .ok placed' ∧
      placed'.length = placed.length ∧
      ∀ i, placed'.getD i none
        = match (chunks.filter fun c => c.1 == i).getLast? with
          | some c => some c.2.2
          | none => placed.getD i none := by
  intro chunks
  induction chunks with
  | nil =>
    intro placed _
    exact ⟨placed, rfl, rfl, fun i => by simp⟩
  | cons c cs ih =>
    intro placed hlt
    have hc : c.1 < placed.length := hlt c (by simp)
    have hstep : placeChunks (c :: cs) placed
        = if c.1 ≥ placed.length then .error (.seqOutOfRange c.1 placed.length)
          else placeChunks cs (placed.set c.1 (some c.2.2)) := rfl
    obtain ⟨placed', hrun, hlen, hspec⟩ := ih (placed.set c.1 (some c.2.2))
      (by intro x hx; rw [List.length_set]; exact hlt x (by simp [hx]))
    refine ⟨placed', by rw [hstep, if_neg (by omega)]; exact hrun,
      by rw [hlen, List.length_set], ?_⟩
    intro i
    rw [hspec i]
    by_cases hci : c.1 = i
    · subst hci
      have hfcons : (c :: cs).filter (fun x => x.1 == c.1)
          = c :: cs.filter (fun x => x.1 == c.1) := by
        rw [List.filter_cons, if_pos (by simp)]
      rw [hfcons]
      rcases hfc : cs.filter (fun x => x.1 == c.1) with _ | ⟨y, ys⟩
      · simp only [hfc, List.getLast?_nil, List.getLast?_singleton]
        rw [getD_set_self hc]
      · simp only [hfc, List.getLast?_cons_cons]
        rcases hgl : (y :: ys).getLast? with _ | z
        · simp at hgl
        · simp only [hgl]
    · have hfcons : (c :: cs).filter (fun x => x.1 == i)
          = cs.filter (fun x => x.1 == i) := by
        rw [List.filter_cons, if_neg (by simp [hci])]
      rw [hfcons]
      rcases hfl : (cs.filter fun x => x.1 == i).getLast? with _ | z
      · simp only [hfl, getD_set_ne hci]
      · simp only [hfl]

theorem placeChunks_error : ∀ (chunks : List (Nat × Nat × List Nat))
    (placed : List (Option (List Nat))),
    (∃ c ∈ chunks, placed.length ≤ c.1) →
    ∃ s, placeChunks chunks placed = .error (.seqOutOfRange s placed.length) ∧
      ∃ c ∈ chunks, c.1 = s ∧ placed.length ≤ s := by
  intro chunks
  induction chunks with
  | nil => intro placed ⟨c, hc, _⟩; simp at hc
  | cons c cs ih =>
    intro placed hex
    have hstep : placeChunks (c :: cs) placed
        = if c.1 ≥ placed.length then .error (.seqOutOfRange c.1 placed.length)
          else placeChunks cs (placed.set c.1 (some c.2.2)) := rfl
    by_cases hc : placed.length ≤ c.1
    · exact ⟨c.1, by rw [hstep, if_pos (by omega)], c, by simp, rfl, hc⟩
    · obtain ⟨x, hx, hxe⟩ := hex
      rcases List.mem_cons.mp hx with rfl | hx'
      · omega
      · obtain ⟨s, hs, y, hy, hys, hyl⟩ := ih (placed.set c.1 (some c.2.2))
          ⟨x, hx', by rw [List.length_set]; exact hxe⟩
        rw [List.length_set] at hs hyl
        exact ⟨s, by rw [hstep, if_neg (by omega)]; exact hs, y, by simp [hy], hys, hyl⟩

theorem firstNone_eq_none : ∀ (l : List (Option (List Nat))) (k : Nat),
    (∀ x ∈ l, x ≠ none) → firstNone l k = none := by
  intro l
  induction l with
  | nil => intro k _; rfl
  | cons x xs ih =>
    intro k h
    cases x with
    | none => exact absurd rfl (h none (by simp))
    | some v => exact ih (k + 1) (fun y hy => h y (by simp [hy]))

theorem firstNone_eq_some : ∀ (l : List (Option (List Nat))) (k i : Nat),
    i < l.length → l.getD i (some []) = none →
    (∀ j, j < i → l.getD j (some []) ≠ none) →
    firstNone l k = some (k + i) := by
  intro l
  induction l with
  | nil => intro k i hi _ _; simp at hi
  | cons x xs ih =>
    intro k i hi hnone hbefore
    cases x with
    | none =>
      have hi0 : i = 0 := by
        by_contra hne
        exact (hbefore 0 (by omega)) rfl
      subst hi0
      show some k = some (k + 0)
      rw [Nat.add_zero]
    | some v =>
      cases i with
      | zero => simp at hnone
      | succ j =>
        have hrec := ih (k + 1) j (by simp at hi; omega)
          (by simpa using hnone)
          (fun m hm => by
            have := hbefore (m + 1) (by omega)
            simpa using this)
        rw [show firstNone (some v :: xs) k = firstNone xs (k + 1) from rfl, hrec]
        congr 1
        omega

theorem foldl_append_getD (placed : List (Option (List Nat))) : ∀ acc : List Nat,
    placed.foldl (fun out s => out ++ s.getD []) acc
      = acc ++ (placed.map (fun s => s.getD [])).flatten := by
  induction placed with
  | nil => intro acc; simp
  | cons s ss ih =>
    intro acc
    rw [List.foldl_cons, ih, List.map_cons, List.flatten_cons, ← List.append_assoc]

theorem getD_default_irrel {α : Type} {l : List α} {i : Nat} (h : i < l.length) (d d' : α) :
    l.getD i d = l.getD i d' := by
  rw [List.getD_eq_getElem?_getD, List.getD_eq_getElem?_getD, List.getElem?_eq_getElem h]
  rfl

theorem getD_replicate_none (T i : Nat) (h : i < T) :
    (List.replicate T (none : Option (List Nat))).getD i none = none := by
  induction T generalizing i with
  | zero => omega
  | succ k ihk =>
    cases i with
    | zero => rfl
    | succ j =>
      show (List.replicate k (none : Option (List Nat))).getD j none = none
      exact ihk j (by omega)

theorem eq_range_map (placed' : List (Option (List Nat))) (T : Nat)
    (hlen : placed'.length = T) (f : Nat → Option (List Nat))
    (h : ∀ i, i < T → placed'.getD i none = f i) :
    placed' = (List.range T).map f := by
  apply List.ext_getElem (by simp [hlen])
  intro i h1 h2
  have hf := h i (by omega)
  rw [List.getD_eq_getElem?_getD, List.getElem?_eq_getElem h1] at hf
  simp only [Option.getD_some] at hf
  simp [hf]

/-- C7: reassembly of a nonempty identifier-matching chunk set takes
expectedTotal as the maximum total observed across the chunks, fails with
InvalidTotal when it is zero, fails with SequenceOutOfRange when some chunk's
sequence reaches it, resolves duplicate sequence numbers last-writer-wins,
fails with MissingChunk at the first sequence index no chunk covers, and
otherwise returns the slots concatenated in sequence order. -/
theorem C7_reassembly (chunks : List (Nat × Nat × List Nat)) (hne : chunks ≠ []) :
    ((∀ c ∈ chunks, c.2.1 ≤ maxTotal chunks) ∧ ∃ c ∈ chunks, maxTotal chunks = c.2.1) ∧
    (maxTotal chunks = 0 → reassemble chunks = .error .invalidTotal) ∧
    (maxTotal chunks ≠ 0 →
      ((∃ c ∈ chunks, maxTotal chunks ≤ c.1) →
        ∃ s, reassemble chunks = .error (.seqOutOfRange s (maxTotal chunks)) ∧
          ∃ c ∈ chunks, c.1 = s ∧ maxTotal chunks ≤ s) ∧
      ((∀ c ∈ chunks, c.1 < maxTotal chunks) →
        (∀ i, i < maxTotal chunks →
          lastWrite chunks i = none → (∀ j, j < i → lastWrite chunks j ≠ none) →
          reassemble chunks = .error (.missingChunk i)) ∧
        ((∀ i, i < maxTotal chunks → lastWrite chunks i ≠ none) →
          reassemble chunks = .ok (some
            (((List.range (maxTotal chunks)).map
              (fun i => (lastWrite chunks i).getD [])).flatten))))) := by
  obtain ⟨c, cs, rfl⟩ := List.exists_cons_of_ne_nil hne
  have hred : reassemble (c :: cs)
      = (if maxTotal (c :: cs) = 0 then .error .invalidTotal
        else match placeChunks (c :: cs) (List.replicate (maxTotal (c :: cs)) none) with
          | .error e => .error e
          | .ok placed =>
            match firstNone placed 0 with
            | some i => .error (.missingChunk i)
            | none => .ok (some (placed.foldl (fun out s => out ++ s.getD []) []))) := by
    rw [reassemble]
    rw [expOpt_eq_maxTotal]
  refine ⟨⟨?_, ?_⟩, ?_, ?_⟩
  · intro x hx
    rcases List.mem_cons.mp hx with rfl | hx'
    · rw [maxTotal, List.foldl_cons]
      have := (foldl_max_ge cs (max 0 x.2.1)).1
      omega
    · rw [maxTotal, List.foldl_cons]
      exact (foldl_max_ge cs (max 0 c.2.1)).2 x hx'
  · rw [maxTotal, List.foldl_cons]
    rcases foldl_max_attained cs (max 0 c.2.1) with h | ⟨x, hx, hh⟩
    · exact ⟨c, by simp, by omega⟩
    · exact ⟨x, by simp [hx], hh⟩
  · intro h0
    rw [hred, if_pos h0]
  · intro h0
    constructor
    · intro hex
      obtain ⟨s, hs, hc⟩ := placeChunks_error (c :: cs)
        (List.replicate (maxTotal (c :: cs)) none)
        (by
          obtain ⟨x, hx, hxe⟩ := hex
          exact ⟨x, hx, by rw [List.length_replicate]; exact hxe⟩)
      rw [List.length_replicate] at hs
      refine ⟨s, ?_, ?_⟩
      · rw [hred, if_neg h0, hs]
      · obtain ⟨y, hy, hys, hyl⟩ := hc
        rw [List.length_replicate] at hyl
        exact ⟨y, hy, hys, hyl⟩
    · intro hall
      obtain ⟨placed', hrun, hlen, hspec⟩ := placeChunks_spec (c :: cs)
        (List.replicate (maxTotal (c :: cs)) none)
        (by intro x hx; rw [List.length_replicate]; exact hall x hx)
      rw [List.length_replicate] at hlen
      have hslot : ∀ i, i < maxTotal (c :: cs) →
          placed'.getD i none = lastWrite (c :: cs) i := by
        intro i hi
        rw [hspec i, lastWrite]
        rcases hgl : ((c :: cs).filter fun x => x.1 == i).getLast? with _ | y
        · simp only [hgl, Option.map_none']
          exact getD_replicate_none _ _ hi
        · simp only [hgl, Option.map_some']
      constructor
      · intro i hi hmiss hbefore
        rw [hred, if_neg h0, hrun]
        have hfn : firstNone placed' 0 = some i := by
          have hi' : i < placed'.length := by omega
          have h1 : placed'.getD i (some []) = none := by
            rw [getD_default_irrel hi' (some []) none, hslot i hi, hmiss]
          have h2 : ∀ j, j < i → placed'.getD j (some []) ≠ none := by
            intro j hj
            have hj' : j < placed'.length := by omega
            rw [getD_default_irrel hj' (some []) none, hslot j (by omega)]
            exact hbefore j hj
          have := firstNone_eq_some placed' 0 i hi' h1 h2
          rwa [Nat.zero_add] at this
        simp only [hfn]
      · intro hfull
        rw [hred, if_neg h0, hrun]
        have hfn : firstNone placed' 0 = none := by
          apply firstNone_eq_none
          intro x hx
          obtain ⟨i, hi, rfl⟩ := List.mem_iff_getElem.mp hx
          have hi' : i < maxTotal (c :: cs) := by omega
          have := hslot i hi'
          rw [List.getD_eq_getElem?_getD, List.getElem?_eq_getElem hi] at this
          simp only [Option.getD_some] at this
          rw [this]
          exact hfull i hi'
        simp only [hfn]
        have hplaced : placed' = (List.range (maxTotal (c :: cs))).map
            (fun i => lastWrite (c :: cs) i) :=
          eq_range_map placed' _ hlen _ hslot
        rw [foldl_append_getD, List.nil_append, hplaced, List.map_map]
        rfl

/-- Witness for C7 at a two-chunk list with a duplicate sequence 0 (checking
the last-writer-wins concatenation). -/
theorem C7_reassembly_witness :
    (([(0, 1, [5]), (0, 1, [9])] : List (Nat × Nat × List Nat)) ≠ []) ∧
    (((∀ c ∈ ([(0, 1, [5]), (0, 1, [9])] : List (Nat × Nat × List Nat)),
        c.2.1 ≤ maxTotal [(0, 1, [5]), (0, 1, [9])]) ∧
      ∃ c ∈ ([(0, 1, [5]), (0, 1, [9])] : List (Nat × Nat × List Nat)),
        maxTotal [(0, 1, [5]), (0, 1, [9])] = c.2.1) ∧
    (maxTotal [(0, 1, [5]), (0, 1, [9])] = 0 →
      reassemble [(0, 1, [5]), (0, 1, [9])] = .error .invalidTotal) ∧
    (maxTotal [(0, 1, [5]), (0, 1, [9])] ≠ 0 →
      ((∃ c ∈ ([(0, 1, [5]), (0, 1, [9])] : List (Nat × Nat × List Nat)),
          maxTotal [(0, 1, [5]), (0, 1, [9])] ≤ c.1) →
        ∃ s, reassemble [(0, 1, [5]), (0, 1, [9])]
            = .error (.seqOutOfRange s (maxTotal [(0, 1, [5]), (0, 1, [9])])) ∧
          ∃ c ∈ ([(0, 1, [5]), (0, 1, [9])] : List (Nat × Nat × List Nat)),
            c.1 = s ∧ maxTotal [(0, 1, [5]), (0, 1, [9])] ≤ s) ∧
      ((∀ c ∈ ([(0, 1, [5]), (0, 1, [9])] : List (Nat × Nat × List Nat)),
          c.1 < maxTotal [(0, 1, [5]), (0, 1, [9])]) →
        (∀ i, i < maxTotal [(0, 1, [5]), (0, 1, [9])] →
          lastWrite [(0, 1, [5]), (0, 1, [9])] i = none →
          (∀ j, j < i → lastWrite [(0, 1, [5]), (0, 1, [9])] j ≠ none) →
          reassemble [(0, 1, [5]), (0, 1, [9])] = .error (.missingChunk i)) ∧
        ((∀ i, i < maxTotal [(0, 1, [5]), (0, 1, [9])] →
            lastWrite [(0, 1, [5]), (0, 1, [9])] i ≠ none) →
          reassemble [(0, 1, [5]), (0, 1, [9])] = .ok (some
            (((List.range (maxTotal [(0, 1, [5]), (0, 1, [9])])).map
              (fun i => (lastWrite [(0, 1, [5]), (0, 1, [9])] i).getD [])).flatten)))))) :=
  ⟨by decide, C7_reassembly [(0, 1, [5]), (0, 1, [9])] (by decide)⟩


/-! ### Well-formed JPEG carriers and the segment scan -/

/-- Well-formed pre-scan marker segment: the `0xFF` framing byte, a marker
byte that is neither start-of-scan nor a stuffed byte nor a restart marker,
then a big-endian length field (two bytes) equal to the remaining payload
length plus 2. -/
def SegWf (s : List Nat) : Prop :=
  ∃ m hi lo pl, s = 0xFF :: m :: hi :: lo :: pl ∧
    m ≠ 0xDA ∧ m ≠ 0 ∧ ¬(0xD0 ≤ m ∧ m ≤ 0xD7) ∧
    hi < 256 ∧ lo < 256 ∧ 256 * hi + lo = pl.length + 2

/-- Structured JPEG carrier: start-of-image marker, a run of pre-scan
segments, the start-of-scan marker, and an opaque tail. -/
def mkJpeg (segs : List (List Nat)) (tl : List Nat) : List Nat :=
  0xFF :: 0xD8 :: (segs.flatten ++ 0xFF :: 0xDA :: tl)

/-- The `(marker, start, end)` ranges the scanner reports for a run of
well-formed segments starting at offset `i`. -/
def segRanges (i : Nat) : List (List Nat) → List (Nat × Nat × Nat)
  | [] => []
  | s :: rest => (s.getD 1 0, i, i + s.length) :: segRanges (i + s.length) rest

theorem getD_of_drop_eq {buf X : List Nat} {i : Nat} (h : buf.drop i = X) (k d : Nat) :
    buf.getD (i + k) d = X.getD k d := by
  rw [← getD_drop, h]

theorem length_of_drop_eq {buf X : List Nat} {i : Nat} (h : buf.drop i = X) :
    X.length = buf.length - i := by
  rw [← h, List.length_drop]

theorem SegWf.len_ge {s : List Nat} (h : SegWf s) : 4 ≤ s.length := by
  obtain ⟨m, hi, lo, pl, hs, _⟩ := h
  subst hs
  simp only [List.length_cons]
  omega

theorem flatten_length_ge (segs : List (List Nat)) (h : ∀ s ∈ segs, SegWf s) :
    4 * segs.length ≤ segs.flatten.length := by
  induction segs with
  | nil => simp
  | cons s rest ih =>
    simp only [List.flatten_cons, List.length_append, List.length_cons]
    have h1 := SegWf.len_ge (h s (List.mem_cons_self _ _))
    have h2 := ih (fun t ht => h t (List.mem_cons_of_mem _ ht))
    omega

/-- The start-of-scan search over a well-formed carrier region: starting at
the beginning of a run of well-formed segments followed by `FF DA`, it skips
every segment and reports the offset of the start-of-scan marker. -/
theorem findSosGo_spec : ∀ (segs : List (List Nat)) (fuel i : Nat) (buf tl : List Nat),
    (∀ s ∈ segs, SegWf s) →
    buf.drop i = segs.flatten ++ 0xFF :: 0xDA :: tl →
    segs.length + 1 ≤ fuel →
    findSosGo fuel buf i = some (i + segs.flatten.length) := by
  intro segs
  induction segs with
  | nil =>
    intro fuel i buf tl hwf hdrop hfuel
    obtain ⟨k, rfl⟩ : ∃ k, fuel = k + 1 := ⟨fuel - 1, by omega⟩
    simp only [List.flatten_nil, List.nil_append] at hdrop ⊢
    have hXlen := length_of_drop_eq hdrop
    simp only [List.length_cons] at hXlen
    have hlen : i + 1 < buf.length := by omega
    have g0 : buf.getD i 0 = 0xFF := by
      have h := getD_of_drop_eq hdrop 0 0
      rw [Nat.add_zero] at h
      rw [h]
      rfl
    have g1 : buf.getD (i + 1) 0 = 0xDA := by
      rw [getD_of_drop_eq hdrop 1 0]
      rfl
    simp only [findSosGo]
    rw [if_pos hlen, g0, if_neg (by simp), g1, if_pos rfl, List.length_nil, Nat.add_zero]
  | cons s rest ih =>
    intro fuel i buf tl hwf hdrop hfuel
    obtain ⟨m, hi, lo, pl, hseq, hmDA, hm0, hmRST, hhi, hlo, hrel⟩ :=
      hwf s (List.mem_cons_self _ _)
    obtain ⟨k, rfl⟩ : ∃ k, fuel = k + 1 := ⟨fuel - 1, by omega⟩
    subst hseq
    simp only [List.flatten_cons, List.append_assoc] at hdrop ⊢
    have hXlen := length_of_drop_eq hdrop
    simp only [List.length_append, List.length_cons] at hXlen
    have hlen : i + 1 < buf.length := by omega
    have g0 : buf.getD i 0 = 0xFF := by
      have h := getD_of_drop_eq hdrop 0 0
      rw [Nat.add_zero] at h
      rw [h]
      rfl
    have g1 : buf.getD (i + 1) 0 = m := by
      rw [getD_of_drop_eq hdrop 1 0]
      rfl
    have g2 : buf.getD (i + 2) 0 = hi := by
      rw [getD_of_drop_eq hdrop 2 0]
      rfl
    have g3 : buf.getD (i + 3) 0 = lo := by
      rw [getD_of_drop_eq hdrop 3 0]
      rfl
    have hdrop' : buf.drop (i + (pl.length + 4)) = rest.flatten ++ 0xFF :: 0xDA :: tl := by
      rw [← List.drop_drop, hdrop]
      exact List.drop_left' (by simp only [List.length_cons]; try omega)
    have hrec := ih k (i + (pl.length + 4)) buf tl
      (fun t ht => hwf t (List.mem_cons_of_mem _ ht)) hdrop'
      (by simp only [List.length_cons] at hfuel; omega)
    simp only [findSosGo]
    rw [if_pos hlen, g0, if_neg (by simp), g1, if_neg hmDA,
      if_neg (by rintro (h | h); exacts [hm0 h, hmRST h]),
      if_neg (by omega), g2, g3,
      show i + 2 + (256 * hi + lo) = i + (pl.length + 4) from by omega, hrec]
    congr 1
    simp only [List.length_append, List.length_cons]
    omega

/-- The segment collector over a well-formed carrier region: starting at a run
of well-formed segments followed by `FF DA`, it reports exactly the
`(marker, start, end)` range of each segment, in order. -/
theorem collectSegsGo_spec : ∀ (segs : List (List Nat)) (fuel i : Nat) (buf tl : List Nat),
    (∀ s ∈ segs, SegWf s) →
    buf.drop i = segs.flatten ++ 0xFF :: 0xDA :: tl →
    segs.length + 1 ≤ fuel →
    collectSegsGo fuel buf i = segRanges i segs := by
  intro segs
  induction segs with
  | nil =>
    intro fuel i buf tl hwf hdrop hfuel
    obtain ⟨k, rfl⟩ : ∃ k, fuel = k + 1 := ⟨fuel - 1, by omega⟩
    simp only [List.flatten_nil, List.nil_append] at hdrop
    have hXlen := length_of_drop_eq hdrop
    simp only [List.length_cons] at hXlen
    have hlen : i + 1 < buf.length := by omega
    have g0 : buf.getD i 0 = 0xFF := by
      have h := getD_of_drop_eq hdrop 0 0
      rw [Nat.add_zero] at h
      rw [h]
      rfl
    have g1 : buf.getD (i + 1) 0 = 0xDA := by
      rw [getD_of_drop_eq hdrop 1 0]
      rfl
    simp only [collectSegsGo, segRanges]
    rw [if_pos hlen, g0, if_neg (by simp), g1, if_pos rfl]
  | cons s rest ih =>
    intro fuel i buf tl hwf hdrop hfuel
    obtain ⟨m, hi, lo, pl, hseq, hmDA, hm0, hmRST, hhi, hlo, hrel⟩ :=
      hwf s (List.mem_cons_self _ _)
    obtain ⟨k, rfl⟩ : ∃ k, fuel = k + 1 := ⟨fuel - 1, by omega⟩
    subst hseq
    simp only [List.flatten_cons, List.append_assoc] at hdrop
    have hXlen := length_of_drop_eq hdrop
    simp only [List.length_append, List.length_cons] at hXlen
    have hlen : i + 1 < buf.length := by omega
    have g0 : buf.getD i 0 = 0xFF := by
      have h := getD_of_drop_eq hdrop 0 0
      rw [Nat.add_zero] at h
      rw [h]
      rfl
    have g1 : buf.getD (i + 1) 0 = m := by
      rw [getD_of_drop_eq hdrop 1 0]
      rfl
    have g2 : buf.getD (i + 2) 0 = hi := by
      rw [getD_of_drop_eq hdrop 2 0]
      rfl
    have g3 : buf.getD (i + 3) 0 = lo := by
      rw [getD_of_drop_eq hdrop 3 0]
      rfl
    have hdrop' : buf.drop (i + (pl.length + 4)) = rest.flatten ++ 0xFF :: 0xDA :: tl := by
      rw [← List.drop_drop, hdrop]
      exact List.drop_left' (by simp only [List.length_cons]; try omega)
    have hrec := ih k (i + (pl.length + 4)) buf tl
      (fun t ht => hwf t (List.mem_cons_of_mem _ ht)) hdrop'
      (by simp only [List.length_cons] at hfuel; omega)
    simp only [collectSegsGo, segRanges]
    rw [if_pos hlen, g0, if_neg (by simp), g1, if_neg hmDA,
      if_neg (by rintro (h | h); exacts [hm0 h, hmRST h]),
      if_neg (by omega), g2, g3,
      if_neg (by omega),
      show i + 2 + (256 * hi + lo) = i + (pl.length + 4) from by omega, hrec]
    have hgd : (255 :: m :: hi :: lo :: pl).getD 1 0 = m := rfl
    have hln : (255 :: m :: hi :: lo :: pl).length = pl.length + 4 := by
      simp only [List.length_cons]
    rw [hgd, hln]

/-- `collect_app_segments` on a structured carrier. -/
theorem collect_mkJpeg (segs : List (List Nat)) (tl : List Nat)
    (hwf : ∀ s ∈ segs, SegWf s) :
    collect_app_segments (mkJpeg segs tl) = segRanges 2 segs := by
  have h1 := flatten_length_ge segs hwf
  refine collectSegsGo_spec segs (mkJpeg segs tl).length 2 (mkJpeg segs tl) tl hwf rfl ?_
  rw [mkJpeg]
  simp only [List.length_cons, List.length_append]
  omega

/-- `find_sos_index` on a structured carrier: the start-of-scan offset is
right after the segment run. -/
theorem find_sos_mkJpeg (segs : List (List Nat)) (tl : List Nat)
    (hwf : ∀ s ∈ segs, SegWf s) :
    find_sos_index (mkJpeg segs tl) = some (2 + segs.flatten.length) := by
  have h1 := flatten_length_ge segs hwf
  refine findSosGo_spec segs (mkJpeg segs tl).length 2 (mkJpeg segs tl) tl hwf rfl ?_
  rw [mkJpeg]
  simp only [List.length_cons, List.length_append]
  omega

theorem slice_of_drop {buf X s : List Nat} {i : Nat} (h : buf.drop i = s ++ X) :
    slice buf i (i + s.length) = s := by
  rw [slice, h, show i + s.length - i = s.length from by omega, List.take_left]

theorem slice_of_drop_inner {buf X s : List Nat} {i : Nat} (h : buf.drop i = s ++ X)
    (h4 : 4 <= s.length) :
    slice buf (i + 4) (i + s.length) = s.drop 4 := by
  have hdrop : buf.drop (i + 4) = s.drop 4 ++ X := by
    rw [<- List.drop_drop, h, List.drop_append_eq_append_drop,
      Nat.sub_eq_zero_of_le h4, List.drop_zero]
  rw [slice, hdrop,
    show i + s.length - (i + 4) = (s.drop 4).length from by rw [List.length_drop]; omega,
    List.take_left]

theorem foldl_append_segs (marker : Nat) : forall (chunks : List (List Nat)) (acc : List Nat),
    chunks.foldl (fun acc c => acc ++ make_app_segment marker c) acc
      = acc ++ (chunks.map (make_app_segment marker)).flatten := by
  intro chunks
  induction chunks with
  | nil => intro acc; simp
  | cons c cs ih =>
    intro acc
    simp only [List.foldl_cons, List.map_cons, List.flatten_cons, ih, List.append_assoc]

/-- The kept-segments fold of `insert_or_replace_appn` over the ranges of a
run of well-formed segments keeps, byte-for-byte and in order, exactly the
segments whose payload does not start with the identifier. -/
theorem keptFold_spec (id buf : List Nat) :
    forall (segs : List (List Nat)) (i : Nat) (X acc : List Nat),
    (forall s, s ∈ segs -> SegWf s) ->
    buf.drop i = segs.flatten ++ X ->
    (segRanges i segs).foldl (fun acc seg =>
        if seg.2.1 + 4 > seg.2.2 then acc
        else
          if id.isPrefixOf (slice buf (seg.2.1 + 4) seg.2.2)
            then acc else acc ++ slice buf seg.2.1 seg.2.2) acc
      = acc ++ (segs.filter (fun s => ! id.isPrefixOf (s.drop 4))).flatten := by
  intro segs
  induction segs with
  | nil =>
    intro i X acc hwf hdrop
    simp [segRanges]
  | cons s rest ih =>
    intro i X acc hwf hdrop
    have hlen4 : 4 <= s.length := SegWf.len_ge (hwf s (List.mem_cons_self _ _))
    rw [List.flatten_cons, List.append_assoc] at hdrop
    have hsl := slice_of_drop hdrop
    have hsl4 := slice_of_drop_inner hdrop hlen4
    have hdrop2 : buf.drop (i + s.length) = rest.flatten ++ X := by
      rw [<- List.drop_drop, hdrop, List.drop_left]
    have hrec := ih (i + s.length) X
    simp only [segRanges, List.foldl_cons, List.filter_cons]
    rw [if_neg (by omega), hsl, hsl4]
    by_cases hpre : id.isPrefixOf (s.drop 4) = true
    · rw [if_pos hpre, hpre]
      simp only [Bool.not_true, Bool.false_eq_true, if_false]
      exact hrec acc (fun t ht => hwf t (List.mem_cons_of_mem _ ht)) hdrop2
    · rw [if_neg hpre]
      rw [Bool.not_eq_true] at hpre
      rw [hpre]
      simp only [Bool.not_false, if_true, List.flatten_cons]
      rw [hrec (acc ++ s) (fun t ht => hwf t (List.mem_cons_of_mem _ ht)) hdrop2,
        List.append_assoc]

/-- Structure of `insert_or_replace_appn` on a well-formed carrier: the output
is again a structured carrier whose segment run is the non-matching original
segments (byte-for-byte, in order) followed by the freshly built chunk
segments, with the start-of-scan suffix unchanged. -/
theorem insert_structure (segs : List (List Nat)) (tl : List Nat) (marker : Nat)
    (id payload : List Nat) (hwf : forall s, s ∈ segs -> SegWf s) :
    insert_or_replace_appn (mkJpeg segs tl) marker (some id) payload
      = .ok (mkJpeg ((segs.filter fun s => ! id.isPrefixOf (s.drop 4))
          ++ (chunk_payload_with_identifier payload id).map (make_app_segment marker)) tl) := by
  have hsos := find_sos_mkJpeg segs tl hwf
  have hcol := collect_mkJpeg segs tl hwf
  have hdrop2 : (mkJpeg segs tl).drop 2 = segs.flatten ++ (0xFF :: 0xDA :: tl) := rfl
  have hkept := keptFold_spec id (mkJpeg segs tl) segs 2 (0xFF :: 0xDA :: tl)
    (slice (mkJpeg segs tl) 0 2) hwf hdrop2
  have hsuffix : (mkJpeg segs tl).drop (2 + segs.flatten.length) = 0xFF :: 0xDA :: tl := by
    rw [<- List.drop_drop, hdrop2, List.drop_left]
  simp only [insert_or_replace_appn, hsos, hcol, Option.getD_some]
  rw [hkept, foldl_append_segs, hsuffix]
  have hsl02 : slice (mkJpeg segs tl) 0 2 = [0xFF, 0xD8] := rfl
  rw [hsl02, mkJpeg, List.flatten_append]
  simp only [List.cons_append, List.nil_append, List.append_assoc]

/-- Structural form of each produced chunk: identifier, then the big-endian
sequence tag, the big-endian total tag, and the chunk body. -/
theorem chunk_payload_structure (payload identifier : List Nat)
    (hmb : 0 < 65533 - (identifier.length + 4)) (k : Nat)
    (hk : k < (chunk_payload_with_identifier payload identifier).length) :
    (chunk_payload_with_identifier payload identifier).getD k []
      = identifier ++ (be16 (k % 65536)
          ++ (be16 (((payload.length + (65533 - (identifier.length + 4)) - 1)
              / (65533 - (identifier.length + 4))) % 65536)
            ++ (chunksOf (65533 - (identifier.length + 4)) payload).getD k [])) := by
  have hunf : chunk_payload_with_identifier payload identifier
      = (chunksOf (65533 - (identifier.length + 4)) payload).enum.map (fun p =>
          identifier ++ (be16 (p.1 % 65536)
            ++ (be16 (((payload.length + (65533 - (identifier.length + 4)) - 1)
                / (65533 - (identifier.length + 4))) % 65536) ++ p.2))) := by
    rw [chunk_payload_with_identifier, if_neg (by omega)]
  rw [hunf] at hk ⊢
  have hk2 : k < (chunksOf (65533 - (identifier.length + 4)) payload).length := by
    simpa using hk
  have hbody := List.getElem?_eq_getElem hk2
  rw [List.getD_eq_getElem?_getD, List.getElem?_map, List.getElem?_enum, hbody]
  simp only [Option.map_some', Option.getD_some]
  have hgd : (chunksOf (65533 - (identifier.length + 4)) payload).getD k []
      = (chunksOf (65533 - (identifier.length + 4)) payload).get ⟨k, hk2⟩ := by
    rw [List.getD_eq_getElem?_getD, hbody, Option.getD_some]
    rfl
  rw [hgd]
  rfl

/-- Length of each produced chunk. -/
theorem chunk_payload_chunk_length (payload identifier : List Nat)
    (hmb : 0 < 65533 - (identifier.length + 4)) (k : Nat)
    (hk : k < (chunk_payload_with_identifier payload identifier).length) :
    ((chunk_payload_with_identifier payload identifier).getD k []).length
      = identifier.length + 4
        + ((chunksOf (65533 - (identifier.length + 4)) payload).getD k []).length := by
  rw [chunk_payload_structure payload identifier hmb k hk]
  simp only [List.length_append, be16, List.length_cons, List.length_nil]
  omega

/-- The body of each produced chunk sits right after the identifier and the
two tags. -/
theorem chunk_payload_body (payload identifier : List Nat)
    (hmb : 0 < 65533 - (identifier.length + 4)) (k : Nat)
    (hk : k < (chunk_payload_with_identifier payload identifier).length) :
    ((chunk_payload_with_identifier payload identifier).getD k []).drop
        (identifier.length + 4)
      = (chunksOf (65533 - (identifier.length + 4)) payload).getD k [] := by
  rw [chunk_payload_structure payload identifier hmb k hk, List.drop_append_eq_append_drop,
    List.drop_eq_nil_of_le (by omega), List.nil_append,
    show identifier.length + 4 - identifier.length = 4 from by omega, be16, be16]
  simp only [List.cons_append, List.nil_append, List.drop_succ_cons, List.drop_zero]

/-- Each produced chunk starts with the identifier. -/
theorem chunk_payload_prefixed (payload identifier : List Nat)
    (hmb : 0 < 65533 - (identifier.length + 4)) (k : Nat)
    (hk : k < (chunk_payload_with_identifier payload identifier).length) :
    identifier.isPrefixOf ((chunk_payload_with_identifier payload identifier).getD k [])
      = true := by
  rw [chunk_payload_structure payload identifier hmb k hk, List.isPrefixOf_iff_prefix]
  exact List.prefix_append _ _

/-- A freshly built chunk segment drops to its chunk after the 4-byte marker
and length framing. -/
theorem make_app_segment_drop4 (marker : Nat) (c : List Nat) :
    (make_app_segment marker c).drop 4 = c := rfl

/-- Length of a built segment. -/
theorem make_app_segment_length (marker : Nat) (c : List Nat) :
    (make_app_segment marker c).length = c.length + 4 := by
  rw [make_app_segment]
  simp only [List.length_cons, List.length_append, be16, List.length_nil]
  omega

/-- A freshly built chunk segment is a well-formed pre-scan segment, provided
the marker byte is valid and the chunk is short enough for its length field
not to wrap. -/
theorem make_app_segment_wf (marker : Nat) (c : List Nat)
    (hmDA : marker ≠ 0xDA) (hm0 : marker ≠ 0) (hmRST : ¬(0xD0 ≤ marker ∧ marker ≤ 0xD7))
    (hlen : c.length + 2 < 65536) :
    SegWf (make_app_segment marker c) := by
  refine ⟨marker, ((c.length + 2) % 65536) >>> 8 &&& 0xFF, ((c.length + 2) % 65536) &&& 0xFF,
    c, rfl, hmDA, hm0, hmRST, ?_, ?_, ?_⟩
  · have h := @Nat.and_le_right (((c.length + 2) % 65536) >>> 8) 0xFF
    omega
  · have h := @Nat.and_le_right ((c.length + 2) % 65536) 0xFF
    omega
  · have h := be16_read ((c.length + 2) % 65536) c
    rw [show (be16 ((c.length + 2) % 65536) ++ c).getD 0 0
        = ((c.length + 2) % 65536) >>> 8 &&& 0xFF from rfl,
      show (be16 ((c.length + 2) % 65536) ++ c).getD 1 0
        = ((c.length + 2) % 65536) &&& 0xFF from rfl] at h
    rw [h]
    omega

/-- C3: on every well-formed carrier (start-of-image, a run of well-formed
pre-scan segments, start-of-scan, tail) `insert_or_replace_appn` returns a
freshly built buffer that keeps byte-for-byte, in order, every pre-scan
segment whose payload does not start with the identifier, drops every
identifier-tagged segment, appends the newly built chunk segments, and keeps
the whole start-of-scan-to-end-of-buffer suffix unchanged; and on every
buffer it fails (with the scanner's no-start-of-scan error) exactly when the
scanner itself fails. -/
theorem C3_insert_preserves :
    (∀ (segs : List (List Nat)) (tl : List Nat) (marker : Nat) (id payload : List Nat),
      (∀ s ∈ segs, SegWf s) →
      insert_or_replace_appn (mkJpeg segs tl) marker (some id) payload
        = .ok (0xFF :: 0xD8 ::
            (((segs.filter fun s => ! id.isPrefixOf (s.drop 4)).flatten
              ++ ((chunk_payload_with_identifier payload id).map
                  (make_app_segment marker)).flatten)
            ++ 0xFF :: 0xDA :: tl))) ∧
    (∀ (original : List Nat) (marker : Nat) (idOpt : Option (List Nat))
      (payload : List Nat),
      insert_or_replace_appn original marker idOpt payload = .error .noSosMarker
        ↔ find_sos_index original = none) := by
  constructor
  · intro segs tl marker id payload hwf
    rw [insert_structure segs tl marker id payload hwf, mkJpeg, List.flatten_append]
  · intro original marker idOpt payload
    rcases hfs : find_sos_index original with _ | v
    · simp only [insert_or_replace_appn, hfs]
    · simp only [insert_or_replace_appn, hfs]
      constructor
      · intro h
        exact absurd h (by simp)
      · intro h
        exact absurd h (by simp)

theorem C3_insert_preserves_witness :
    insert_or_replace_appn (mkJpeg [[0xFF, 0xE0, 0x00, 0x02]] [7]) 0xEB (some duckyId) [1]
      = .ok (0xFF :: 0xD8 ::
          ((([[0xFF, 0xE0, 0x00, 0x02]].filter
              fun s => ! duckyId.isPrefixOf (s.drop 4)).flatten
            ++ ((chunk_payload_with_identifier [1] duckyId).map
                (make_app_segment 0xEB)).flatten)
          ++ 0xFF :: 0xDA :: [7])) :=
  C3_insert_preserves.1 [[0xFF, 0xE0, 0x00, 0x02]] [7] 0xEB duckyId [1] (by
    intro s hs
    simp only [List.mem_singleton] at hs
    subst hs
    exact ⟨0xE0, 0, 2, [], rfl, by decide, by decide, by decide, by decide, by decide, rfl⟩)

/-- The chunk-collection loop over the ranges of a run of well-formed
segments: non-matching segments are skipped and each matching segment (whose
payload is long enough to carry the tags) contributes its parsed
`(sequence, total, data)` triple, in scan order. -/
theorem collectChunks_spec (id buf : List Nat) :
    ∀ (segs : List (List Nat)) (i : Nat) (X : List Nat),
    (∀ s ∈ segs, SegWf s) →
    buf.drop i = segs.flatten ++ X →
    (∀ s ∈ segs, id.isPrefixOf (s.drop 4) = true → id.length + 4 ≤ s.length - 4) →
    collectChunks buf id (segRanges i segs)
      = .ok ((segs.filter fun s => id.isPrefixOf (s.drop 4)).map fun s =>
          (256 * (s.drop 4).getD id.length 0 + (s.drop 4).getD (id.length + 1) 0,
           256 * (s.drop 4).getD (id.length + 2) 0 + (s.drop 4).getD (id.length + 3) 0,
           (s.drop 4).drop (id.length + 4))) := by
  intro segs
  induction segs with
  | nil =>
    intro i X hwf hdrop hhdr
    rfl
  | cons s rest ih =>
    intro i X hwf hdrop hhdr
    have hlen4 : 4 ≤ s.length := SegWf.len_ge (hwf s (List.mem_cons_self _ _))
    rw [List.flatten_cons, List.append_assoc] at hdrop
    have hsl4 := slice_of_drop_inner hdrop hlen4
    have hdrop2 : buf.drop (i + s.length) = rest.flatten ++ X := by
      rw [← List.drop_drop, hdrop, List.drop_left]
    have hrec := ih (i + s.length) X (fun t ht => hwf t (List.mem_cons_of_mem _ ht))
      hdrop2 (fun t ht hp => hhdr t (List.mem_cons_of_mem _ ht) hp)
    simp only [segRanges, collectChunks, List.filter_cons]
    rw [if_neg (by omega), hsl4]
    cases hpre : id.isPrefixOf (s.drop 4) with
    | false =>
      simp only [Bool.false_eq_true, not_false_eq_true, if_true, if_false]
      exact hrec
    | true =>
      simp only [not_true_eq_false, if_false, eq_self_iff_true, if_true]
      have hsdlen : (s.drop 4).length = s.length - 4 := List.length_drop _ _
      rw [if_neg (by rw [hsdlen]; have := hhdr s (List.mem_cons_self _ _) hpre; omega)]
      simp only [hrec, List.map_cons]

theorem foldl_max_le : ∀ (cs : List (Nat × Nat × List Nat)) (acc b : Nat),
    acc ≤ b → (∀ c ∈ cs, c.2.1 ≤ b) → cs.foldl (fun a c => max a c.2.1) acc ≤ b := by
  intro cs
  induction cs with
  | nil => intro acc b h _; exact h
  | cons c cs ih =>
    intro acc b h hall
    rw [List.foldl_cons]
    exact ih _ _ (by have := hall c (List.mem_cons_self _ _); omega)
      (fun x hx => hall x (List.mem_cons_of_mem _ hx))

theorem maxTotal_const (T : Nat) (bodies : Nat → List Nat) (hT : 0 < T) :
    maxTotal ((List.range T).map fun k => (k, T, bodies k)) = T := by
  have hub : maxTotal ((List.range T).map fun k => (k, T, bodies k)) ≤ T := by
    apply foldl_max_le _ 0 T (by omega)
    intro c hc
    obtain ⟨k, hk, rfl⟩ := List.mem_map.mp hc
    exact Nat.le_refl _
  have hmem : ((0, T, bodies 0) : Nat × Nat × List Nat)
      ∈ (List.range T).map fun k => (k, T, bodies k) :=
    List.mem_map.mpr ⟨0, List.mem_range.mpr hT, rfl⟩
  have hge := (foldl_max_ge ((List.range T).map fun k => (k, T, bodies k)) 0).2
    _ hmem
  have hd : ((0, T, bodies 0) : Nat × Nat × List Nat).2.1 = T := rfl
  rw [hd] at hge
  rw [maxTotal] at hub ⊢
  omega

/-- Reduction of `reassemble` on a nonempty chunk list. -/
theorem reassemble_red (chunks : List (Nat × Nat × List Nat)) (hne : chunks ≠ []) :
    reassemble chunks
      = (if maxTotal chunks = 0 then .error .invalidTotal
        else match placeChunks chunks (List.replicate (maxTotal chunks) none) with
          | .error e => .error e
          | .ok placed =>
            match firstNone placed 0 with
            | some i => .error (.missingChunk i)
            | none => .ok (some (placed.foldl (fun out s => out ++ s.getD []) []))) := by
  obtain ⟨c, cs, rfl⟩ := List.exists_cons_of_ne_nil hne
  rw [reassemble]
  rw [expOpt_eq_maxTotal]

theorem range_filter_eq (i : Nat) : ∀ T : Nat, i < T →
    (List.range T).filter (fun k => k == i) = [i] := by
  intro T
  induction T with
  | zero => intro h; omega
  | succ n ih =>
    intro h
    rw [List.range_succ, List.filter_append]
    by_cases hi : i < n
    · rw [ih hi]
      have hone : List.filter (fun k => k == i) [n] = [] := by
        simp only [List.filter_cons, List.filter_nil]
        rw [if_neg (by simp; omega)]
      rw [hone, List.append_nil]
    · have hin : i = n := by omega
      subst hin
      have h0 : (List.range i).filter (fun k => k == i) = [] := by
        apply List.filter_eq_nil_iff.mpr
        intro k hk
        have := List.mem_range.mp hk
        simp only [beq_iff_eq]
        omega
      rw [h0, List.nil_append]
      simp only [List.filter_cons, List.filter_nil]
      rw [if_pos (by simp)]

theorem filter_fst_map (g : Nat → Nat × Nat × List Nat) (hg : ∀ k, (g k).1 = k) (i : Nat) :
    ∀ ks : List Nat,
    ((ks.map g).filter fun c => c.1 == i) = (ks.filter fun k => k == i).map g := by
  intro ks
  induction ks with
  | nil => rfl
  | cons k ks ih =>
    simp only [List.map_cons, List.filter_cons, hg k]
    cases hk : (k == i) with
    | false => simp only [Bool.false_eq_true, if_false, ih]
    | true => simp only [eq_self_iff_true, if_true, List.map_cons, ih]

/-- Reassembly of a complete in-order enumeration `(k, T, bodies k)` for
`k < T` succeeds and concatenates the bodies in order. -/
theorem reassemble_range_map (T : Nat) (bodies : Nat → List Nat) (hT : 0 < T) :
    reassemble ((List.range T).map fun k => (k, T, bodies k))
      = .ok (some (((List.range T).map bodies).flatten)) := by
  have hne : ((List.range T).map fun k => (k, T, bodies k)) ≠ [] := by
    intro h
    have hl := congrArg List.length h
    simp only [List.length_map, List.length_range, List.length_nil] at hl
    omega
  have hmax : maxTotal ((List.range T).map fun k => (k, T, bodies k)) = T :=
    maxTotal_const T bodies hT
  have hred := reassemble_red _ hne
  obtain ⟨placed2, hrun, hlen, hspec⟩ := placeChunks_spec
    ((List.range T).map fun k => (k, T, bodies k)) (List.replicate T none)
    (by
      intro c hc
      obtain ⟨k, hk, rfl⟩ := List.mem_map.mp hc
      rw [List.length_replicate]
      exact List.mem_range.mp hk)
  rw [List.length_replicate] at hlen
  have hslot : ∀ i, i < T → placed2.getD i none = some (bodies i) := by
    intro i hi
    rw [hspec i, filter_fst_map (fun k => (k, T, bodies k)) (fun k => rfl) i,
      range_filter_eq i T hi]
    rfl
  rw [hred, hmax, if_neg (by omega), hrun]
  have hfn : firstNone placed2 0 = none := by
    apply firstNone_eq_none
    intro x hx
    obtain ⟨i, hi, rfl⟩ := List.mem_iff_getElem.mp hx
    have hi2 : i < T := by omega
    have hx2 := hslot i hi2
    rw [List.getD_eq_getElem?_getD, List.getElem?_eq_getElem hi] at hx2
    simp only [Option.getD_some] at hx2
    rw [hx2]
    simp
  simp only [hfn]
  have hplaced : placed2 = (List.range T).map (fun i => some (bodies i)) :=
    eq_range_map placed2 T hlen _ hslot
  rw [foldl_append_getD, List.nil_append, hplaced, List.map_map]
  rfl

/-- Number of produced chunks. -/
theorem chunk_payload_count (payload identifier : List Nat)
    (hmb : 0 < 65533 - (identifier.length + 4)) :
    (chunk_payload_with_identifier payload identifier).length
      = (payload.length + (65533 - (identifier.length + 4)) - 1)
        / (65533 - (identifier.length + 4)) := by
  rw [chunk_payload_with_identifier, if_neg (by omega), List.length_map]
  rw [List.enum_length, chunksOf_count hmb]

theorem range_map_getD_list (l : List (List Nat)) :
    (List.range l.length).map (fun i => l.getD i []) = l := by
  apply List.ext_getElem (by simp)
  intro i h1 h2
  simp only [List.getElem_map, List.getElem_range]
  rw [List.getD_eq_getElem?_getD, List.getElem?_eq_getElem h2, Option.getD_some]

/-- Extraction after insertion on a well-formed carrier recovers the payload:
the inserted chunk segments are the only identifier-matching ones, they parse
back to the in-order enumeration `(k, total, body k)`, and reassembly
concatenates the bodies back into the payload. -/
theorem extract_insert (segs : List (List Nat)) (tl : List Nat) (marker : Nat)
    (id payload : List Nat)
    (hwf : ∀ s ∈ segs, SegWf s)
    (hmDA : marker ≠ 0xDA) (hm0 : marker ≠ 0)
    (hmRST : ¬(0xD0 ≤ marker ∧ marker ≤ 0xD7))
    (hmb : 0 < 65533 - (id.length + 4))
    (hpne : payload ≠ [])
    (hcount : (payload.length + (65533 - (id.length + 4)) - 1)
        / (65533 - (id.length + 4)) ≤ 65535) :
    extract_payload_from_bytes
        (mkJpeg ((segs.filter fun s => ! id.isPrefixOf (s.drop 4))
          ++ (chunk_payload_with_identifier payload id).map (make_app_segment marker)) tl)
        id
      = .ok (some payload) := by
  have hplen : 0 < payload.length := List.length_pos.mpr hpne
  have hcnt1 : 1 ≤ (payload.length + (65533 - (id.length + 4)) - 1)
      / (65533 - (id.length + 4)) := by
    rw [Nat.le_div_iff_mul_le hmb]
    omega
  have hcps := chunk_payload_count payload id hmb
  have hclen : ∀ k, k < (chunk_payload_with_identifier payload id).length →
      ((chunk_payload_with_identifier payload id).getD k []).length + 2 < 65536 := by
    intro k hk
    rw [chunk_payload_chunk_length payload id hmb k hk]
    have hkc : k < (chunksOf (65533 - (id.length + 4)) payload).length := by
      rw [chunksOf_count hmb, ← hcps]
      exact hk
    have hmem : (chunksOf (65533 - (id.length + 4)) payload).getD k []
        ∈ chunksOf (65533 - (id.length + 4)) payload := by
      rw [List.getD_eq_getElem?_getD, List.getElem?_eq_getElem hkc, Option.getD_some]
      exact List.getElem_mem _
    have hsize := chunksOfGo_size _ _ _ hmem
    omega
  have hwf2 : ∀ s ∈ ((segs.filter fun s => ! id.isPrefixOf (s.drop 4))
      ++ (chunk_payload_with_identifier payload id).map (make_app_segment marker)),
      SegWf s := by
    intro s hs
    rcases List.mem_append.mp hs with h | h
    · exact hwf s (List.mem_of_mem_filter h)
    · obtain ⟨c, hc, rfl⟩ := List.mem_map.mp h
      obtain ⟨k, hk, hck⟩ := List.mem_iff_getElem.mp hc
      have hcd : (chunk_payload_with_identifier payload id).getD k [] = c := by
        rw [List.getD_eq_getElem?_getD, List.getElem?_eq_getElem hk, Option.getD_some]
        exact hck
      exact make_app_segment_wf marker c hmDA hm0 hmRST (by rw [← hcd]; exact hclen k hk)
  have hheader : ∀ s ∈ ((segs.filter fun s => ! id.isPrefixOf (s.drop 4))
      ++ (chunk_payload_with_identifier payload id).map (make_app_segment marker)),
      id.isPrefixOf (s.drop 4) = true → id.length + 4 ≤ s.length - 4 := by
    intro s hs hp
    rcases List.mem_append.mp hs with h | h
    · have hpred := List.of_mem_filter h
      rw [hp] at hpred
      simp at hpred
    · obtain ⟨c, hc, rfl⟩ := List.mem_map.mp h
      obtain ⟨k, hk, hck⟩ := List.mem_iff_getElem.mp hc
      have hcd : (chunk_payload_with_identifier payload id).getD k [] = c := by
        rw [List.getD_eq_getElem?_getD, List.getElem?_eq_getElem hk, Option.getD_some]
        exact hck
      have hlenc := chunk_payload_chunk_length payload id hmb k hk
      rw [hcd] at hlenc
      rw [make_app_segment_length]
      omega
  have hcol := collect_mkJpeg _ tl hwf2
  have hchun := collectChunks_spec id
    (mkJpeg ((segs.filter fun s => ! id.isPrefixOf (s.drop 4))
      ++ (chunk_payload_with_identifier payload id).map (make_app_segment marker)) tl)
    ((segs.filter fun s => ! id.isPrefixOf (s.drop 4))
      ++ (chunk_payload_with_identifier payload id).map (make_app_segment marker))
    2 (0xFF :: 0xDA :: tl) hwf2 rfl hheader
  have hfilt : (((segs.filter fun s => ! id.isPrefixOf (s.drop 4))
      ++ (chunk_payload_with_identifier payload id).map (make_app_segment marker)).filter
        fun s => id.isPrefixOf (s.drop 4))
      = (chunk_payload_with_identifier payload id).map (make_app_segment marker) := by
    rw [List.filter_append]
    have h1 : ((segs.filter fun s => ! id.isPrefixOf (s.drop 4)).filter
        fun s => id.isPrefixOf (s.drop 4)) = [] := by
      apply List.filter_eq_nil_iff.mpr
      intro s hs
      have hpred := List.of_mem_filter hs
      intro hcontra
      rw [hcontra] at hpred
      simp at hpred
    have h2 : (((chunk_payload_with_identifier payload id).map
        (make_app_segment marker)).filter fun s => id.isPrefixOf (s.drop 4))
        = (chunk_payload_with_identifier payload id).map (make_app_segment marker) := by
      apply List.filter_eq_self.mpr
      intro s hs
      obtain ⟨c, hc, rfl⟩ := List.mem_map.mp hs
      obtain ⟨k, hk, hck⟩ := List.mem_iff_getElem.mp hc
      have hcd : (chunk_payload_with_identifier payload id).getD k [] = c := by
        rw [List.getD_eq_getElem?_getD, List.getElem?_eq_getElem hk, Option.getD_some]
        exact hck
      rw [make_app_segment_drop4, ← hcd]
      exact chunk_payload_prefixed payload id hmb k hk
    rw [h1, h2, List.nil_append]
  have hmap : (((chunk_payload_with_identifier payload id).map
      (make_app_segment marker)).map
      fun s => (256 * (s.drop 4).getD id.length 0 + (s.drop 4).getD (id.length + 1) 0,
        256 * (s.drop 4).getD (id.length + 2) 0 + (s.drop 4).getD (id.length + 3) 0,
        (s.drop 4).drop (id.length + 4)))
      = (List.range ((payload.length + (65533 - (id.length + 4)) - 1)
          / (65533 - (id.length + 4)))).map
        (fun k => (k, (payload.length + (65533 - (id.length + 4)) - 1)
            / (65533 - (id.length + 4)),
          (chunksOf (65533 - (id.length + 4)) payload).getD k [])) := by
    apply List.ext_getElem
    · simp only [List.length_map, List.length_range]
      exact hcps
    · intro k h1 h2
      simp only [List.length_map] at h1
      simp only [List.getElem_map, List.getElem_range]
      have hcd : (chunk_payload_with_identifier payload id).getD k []
          = (chunk_payload_with_identifier payload id)[k] := by
        rw [List.getD_eq_getElem?_getD, List.getElem?_eq_getElem h1, Option.getD_some]
      have htags := chunk_payload_tags payload id hmb k h1
      have hbody := chunk_payload_body payload id hmb k h1
      have hklt : k < 65536 := by
        rw [hcps] at h1
        omega
      have hDlt : (payload.length + (65533 - (id.length + 4)) - 1)
          / (65533 - (id.length + 4)) < 65536 := by
        omega
      rw [make_app_segment_drop4, ← hcd]
      have hseq : 256 * ((chunk_payload_with_identifier payload id).getD k []).getD
            id.length 0
          + ((chunk_payload_with_identifier payload id).getD k []).getD
            (id.length + 1) 0 = k := by
        have h := htags.1
        rw [chunkSeqTag] at h
        rw [h, Nat.mod_eq_of_lt hklt]
      have htot : 256 * ((chunk_payload_with_identifier payload id).getD k []).getD
            (id.length + 2) 0
          + ((chunk_payload_with_identifier payload id).getD k []).getD
            (id.length + 3) 0
          = (payload.length + (65533 - (id.length + 4)) - 1)
            / (65533 - (id.length + 4)) := by
        have h := htags.2
        rw [chunkTotTag] at h
        rw [h, Nat.mod_eq_of_lt hDlt]
      rw [hseq, htot, hbody]
  rw [hfilt, hmap] at hchun
  simp only [extract_payload_from_bytes, hcol, hchun]
  have hne2 : ((List.range ((payload.length + (65533 - (id.length + 4)) - 1)
      / (65533 - (id.length + 4)))).map
      (fun k => (k, (payload.length + (65533 - (id.length + 4)) - 1)
          / (65533 - (id.length + 4)),
        (chunksOf (65533 - (id.length + 4)) payload).getD k []))) ≠ [] := by
    intro h
    have hl := congrArg List.length h
    simp only [List.length_map, List.length_range, List.length_nil] at hl
    omega
  obtain ⟨c0, cs0, hL⟩ := List.exists_cons_of_ne_nil hne2
  have hemp : ((List.range ((payload.length + (65533 - (id.length + 4)) - 1)
      / (65533 - (id.length + 4)))).map
      (fun k => (k, (payload.length + (65533 - (id.length + 4)) - 1)
          / (65533 - (id.length + 4)),
        (chunksOf (65533 - (id.length + 4)) payload).getD k []))).isEmpty = false := by
    rw [hL]
    rfl
  rw [hemp]
  simp only [Bool.false_eq_true, if_false]
  rw [reassemble_range_map _ _ (by omega)]
  have hfl : ((List.range ((payload.length + (65533 - (id.length + 4)) - 1)
      / (65533 - (id.length + 4)))).map
      (fun k => (chunksOf (65533 - (id.length + 4)) payload).getD k [])).flatten
      = payload := by
    have hlen := chunksOf_count hmb payload
    rw [← hlen, range_map_getD_list, chunksOf_flatten hmb]
  rw [hfl]

/-- C1 (amended): the round trip `find (hide carrier P) = P` holds on the wav
LSB path for every byte payload (including the empty one) and every 16-bit
carrier with enough capacity; on the marker-multiplex path it holds for every
well-formed carrier, valid APPn marker byte, fitting identifier, and every
*nonempty* payload whose chunk count fits in a u16. (The empty payload does
not round trip on the marker path: zero chunks are inserted and extraction
reports not-found.) -/
theorem C1_roundtrip :
    (∀ samples msg : List Nat, (∀ b ∈ msg, b < 256) → msg.length < 2 ^ 32 →
      32 + 8 * msg.length ≤ samples.length →
      ∃ out, hide_wav true 16 samples msg = .ok out
        ∧ find_wav true 16 out = .ok msg) ∧
    (∀ (segs : List (List Nat)) (tl : List Nat) (marker : Nat) (id payload : List Nat),
      (∀ s ∈ segs, SegWf s) →
      marker ≠ 0xDA → marker ≠ 0 → ¬(0xD0 ≤ marker ∧ marker ≤ 0xD7) →
      0 < 65533 - (id.length + 4) → payload ≠ [] →
      (payload.length + (65533 - (id.length + 4)) - 1)
          / (65533 - (id.length + 4)) ≤ 65535 →
      ∃ newBuf, insert_or_replace_appn (mkJpeg segs tl) marker (some id) payload
          = .ok newBuf
        ∧ extract_payload_from_bytes newBuf id = .ok (some payload)) := by
  constructor
  · intro samples msg h1 h2 h3
    exact wav_roundtrip samples msg h1 h2 h3
  · intro segs tl marker id payload hwf hmDA hm0 hmRST hmb hpne hcount
    exact ⟨_, insert_structure segs tl marker id payload hwf,
      extract_insert segs tl marker id payload hwf hmDA hm0 hmRST hmb hpne hcount⟩

theorem C1_roundtrip_witness :
    ((∀ b ∈ ([7] : List Nat), b < 256) ∧ ([7] : List Nat).length < 2 ^ 32 ∧
      32 + 8 * ([7] : List Nat).length ≤ (List.replicate 40 0 : List Nat).length ∧
      ∃ out, hide_wav true 16 (List.replicate 40 0) [7] = .ok out
        ∧ find_wav true 16 out = .ok [7]) ∧
    (∃ newBuf,
      insert_or_replace_appn (mkJpeg [] [9]) 0xEB (some duckyId) [65] = .ok newBuf
        ∧ extract_payload_from_bytes newBuf duckyId = .ok (some [65])) :=
  ⟨⟨by decide, by decide, by decide,
    C1_roundtrip.1 (List.replicate 40 0) [7] (by decide) (by decide) (by decide)⟩,
   C1_roundtrip.2 [] [9] 0xEB duckyId [65]
     (by intro t ht; exact absurd ht (List.not_mem_nil t))
     (by decide) (by decide) (by decide) (by decide) (by decide) (by decide)⟩

end Steg
